import Mathlib

/-!
# Verification of the scrabbl-ai move engine

A shallow embedding of `scrabbl-ai.cpp`: the board model, the cross-check and
minimum-word-length precomputations, the trie, the backtracking move search
`extend_right`, the scorer `calc_across_pts`, and the top-level selector
`find_best_move`, together with theorems settling the specification claims.

Modelling conventions:
* C++ `vector` becomes `List`; out-of-range reads (which the program avoids via
  its sentinel ring of `outside` squares) are totalised with an `outside`
  default square.
* C++ `while` loops that walk downward over a row index become structural
  recursion on the index; loops that walk upward take an explicit fuel bound
  (the sentinel ring stops the real program well inside the bound).
* The tile point table and the dictionary, which the program loads from data
  files into globals, are explicit parameters (`tiles`, `words`).
* Rack counts are `Int` (C++ `int`); scores are `Nat` (point values from the
  tile file are non-negative and the scorer only adds and multiplies).
-/

set_option maxRecDepth 4000

namespace Scrabble

def NUM_BOARD_ROWS : Nat := 15
def NUM_BOARD_COLS : Nat := 15
def NUM_RACK_TILES : Nat := 7

/-- `enum SquareType`. -/
inductive SquareType where
  | triple_word
  | double_word
  | triple_letter
  | double_letter
  | regular
  | outside
deriving DecidableEq, Repr

/-- `struct Square`.  `letter = '.'` means empty; a lowercase letter is a
blank tile. -/
structure Square where
  type : SquareType
  down_cross_check : List Bool
  letter : Char
  row : Nat
  col : Nat
  min_across_word_length : Int
deriving DecidableEq, Repr

abbrev SquareRow := List Square
abbrev SquareGrid := List SquareRow

/-- ASCII `toupper`, as applied by the program to board letters. -/
def cToUpper (c : Char) : Char :=
  if 'a' ≤ c ∧ c ≤ 'z' then Char.ofNat (c.toNat - 32) else c

/-- ASCII `isupper`. -/
def cIsUpper (c : Char) : Bool :=
  'A' ≤ c ∧ c ≤ 'Z'

/-- ASCII `tolower`, used when a blank tile is recorded in a move. -/
def cToLower (c : Char) : Char :=
  if 'A' ≤ c ∧ c ≤ 'Z' then Char.ofNat (c.toNat + 32) else c

/-- Default square used to totalise reads outside the stored grid.  The real
program never performs such reads on well-formed boards because of the
sentinel ring; the default is itself an out-of-bounds sentinel. -/
def outsideSquare : Square :=
  { type := SquareType.outside
    down_cross_check := List.replicate 26 false
    letter := '.'
    row := 0
    col := 0
    min_across_word_length := -1 }

/-- `board[row][col]` (totalised). -/
def getSq (board : SquareGrid) (row col : Nat) : Square :=
  (board.getD row []).getD col outsideSquare

/-- `board[row][col] = s` (no-op when out of range, like the helpers below it
is only ever used in range by the program). -/
def setSq (board : SquareGrid) (row col : Nat) (s : Square) : SquareGrid :=
  board.set row ((board.getD row []).set col s)

/-- Write only the `min_across_word_length` field of `board[row][col]`. -/
def setMin (board : SquareGrid) (row col : Nat) (v : Int) : SquareGrid :=
  setSq board row col { getSq board row col with min_across_word_length := v }

/-- Write only the `down_cross_check` field of `board[row][col]`. -/
def setCC (board : SquareGrid) (row col : Nat) (cc : List Bool) : SquareGrid :=
  setSq board row col { getSq board row col with down_cross_check := cc }

/-- The `while` loop of `update_down_cross_checks` that collects the letters
of the occupied run directly above a square, top-to-bottom, uppercased.
Called with `check_row = row - 1`; recursion moves upward (index decreases).
At index 0 the C++ loop is stopped by the sentinel ring on well-formed
boards; we stop there unconditionally. -/
def aboveFrag (board : SquareGrid) (col : Nat) : Nat → List Char
  | 0 => []
  | r + 1 =>
    if (getSq board (r + 1) col).letter ≠ '.' ∧
        (getSq board (r + 1) col).type ≠ SquareType.outside then
      aboveFrag board col r ++ [cToUpper (getSq board (r + 1) col).letter]
    else []

/-- The `while` loop of `update_down_cross_checks` that collects the occupied
run directly below a square, top-to-bottom, uppercased.  Walks downward, so
it takes a fuel bound; the sentinel ring stops the real loop. -/
def belowFrag (board : SquareGrid) (col : Nat) : Nat → Nat → List Char
  | _, 0 => []
  | r, fuel + 1 =>
    if (getSq board r col).letter ≠ '.' ∧
        (getSq board r col).type ≠ SquareType.outside then
      cToUpper (getSq board r col).letter :: belowFrag board col (r + 1) fuel
    else []

/-- Fuel that upward-walking loops use; the board is 17 rows/columns wide
including the sentinel ring, so 32 is ample. -/
def SCAN_FUEL : Nat := 32

/-- The 26-letter loop of `update_down_cross_checks`: bit `i` is set iff
`above ++ letter_i ++ below` is an exact member of the lexicon. -/
def crossCheckBits (words : List (List Char)) (above below : List Char) : List Bool :=
  (List.range 26).map fun i =>
    words.contains (above ++ Char.ofNat (65 + i) :: below)

/-- The body of `update_down_cross_checks` for one square `(row, col)`. -/
def updateOneCrossCheck (words : List (List Char)) (board : SquareGrid)
    (row col : Nat) : SquareGrid :=
  if (getSq board row col).letter = '.' then
    let above := aboveFrag board col (row - 1)
    let below := belowFrag board col (row + 1) SCAN_FUEL
    -- "No need to update if there are blanks squares above and below"
    if above = [] ∧ below = [] then board
    else setCC board row col (crossCheckBits words above below)
  else board

/-- `update_down_cross_checks`: recompute the cross-check set of every empty
square in rows 1..15, columns 1..15. -/
def update_down_cross_checks (words : List (List Char)) (board : SquareGrid) :
    SquareGrid :=
  (List.range NUM_BOARD_ROWS).foldl
    (fun b r0 =>
      (List.range NUM_BOARD_COLS).foldl
        (fun b c0 => updateOneCrossCheck words b (r0 + 1) (c0 + 1)) b)
    board

/-- One row of `update_min_across_word_length`: iterate from column `c` down
to column 1, carrying the running `min_word_length` accumulator (started at
`-1` by the caller).  The four branches are the four cases of the source. -/
def minRowScan (row : Nat) : Nat → SquareGrid → Int → SquareGrid
  | 0, b, _ => b
  | c + 1, b, m =>
    if (getSq b row c).letter ≠ '.' then
      minRowScan row c (setMin b row (c + 1) (-1)) m
    else if (getSq b (row - 1) (c + 1)).letter ≠ '.' ∨
            (getSq b (row + 1) (c + 1)).letter ≠ '.' ∨
            (getSq b row (c + 2)).letter ≠ '.' ∨
            (getSq b row (c + 1)).letter ≠ '.' then
      minRowScan row c (setMin b row (c + 1) 1) 1
    else if m = -1 then
      minRowScan row c (setMin b row (c + 1) (-1)) m
    else
      minRowScan row c (setMin b row (c + 1) (m + 1)) (m + 1)

/-- `update_min_across_word_length`: right-to-left scan of every row. -/
def update_min_across_word_length (board : SquareGrid) : SquareGrid :=
  (List.range NUM_BOARD_ROWS).foldl
    (fun b r0 => minRowScan (r0 + 1) NUM_BOARD_COLS b (-1)) board

/-- `struct TrieNode`. -/
inductive TrieNode where
  | mk (letter : Char) (is_terminal_node : Bool) (children : List TrieNode)
      (letter_indexes : List Int) : TrieNode

def TrieNode.letter : TrieNode → Char
  | .mk l _ _ _ => l

def TrieNode.is_terminal_node : TrieNode → Bool
  | .mk _ t _ _ => t

def TrieNode.children : TrieNode → List TrieNode
  | .mk _ _ cs _ => cs

def TrieNode.letter_indexes : TrieNode → List Int
  | .mk _ _ _ idx => idx

/-- A fresh non-terminal node, as allocated by `insert_into_trie`. -/
def newTrieNode (c : Char) : TrieNode :=
  TrieNode.mk c false [] (List.replicate 26 (-1))

/-- `insert_into_trie`: walk the word, adding a child (at the end of the
`children` vector, recording its index in `letter_indexes`) whenever the
letter has no child yet, and mark the final node terminal. -/
def insert_into_trie : TrieNode → List Char → TrieNode
  | .mk l _ cs idx, [] => .mk l true cs idx
  | .mk l t cs idx, ch :: rest =>
    let li := ch.toNat - 65
    let pair :=
      if idx.getD li (-1) = -1 then
        (cs ++ [newTrieNode ch], idx.set li (Int.ofNat cs.length))
      else (cs, idx)
    let childIndex := (pair.2.getD li (-1)).toNat
    let child := pair.1.getD childIndex (newTrieNode ch)
    .mk l t (pair.1.set childIndex (insert_into_trie child rest)) pair.2

/-- The `regex_match(str, all_uppercase)` filter of `create_word_trie`:
`[A-Z]+` full match. -/
def isAllUppercase (w : List Char) : Bool :=
  w ≠ [] ∧ w.all fun c => 'A' ≤ c ∧ c ≤ 'Z'

/-- `create_word_trie`: insert every lexicon word of length `> 2` matching
`[A-Z]+`.  The C++ iterates an `unordered_map`, whose order is unspecified;
the model takes the words in the order of the given list. -/
def create_word_trie (words : List (List Char)) : TrieNode :=
  words.foldl
    (fun root w =>
      if w.length > 2 ∧ isAllUppercase w then insert_into_trie root w else root)
    (TrieNode.mk '*' false [] (List.replicate 26 (-1)))

/-- `Square sqr;` in `add_sqr_to_move` default-initializes the square: the
`down_cross_check` vector is empty, and the scalar fields (`type`,
`min_across_word_length`, `letter`) are left indeterminate by C++.  The model
fixes them to definite defaults; `row`, `col` and `letter` are overwritten
by `add_sqr_to_move` before the square is ever read. -/
def uninitSquare : Square :=
  { type := SquareType.regular
    down_cross_check := []
    letter := '.'
    row := 0
    col := 0
    min_across_word_length := 0 }

/-- `add_sqr_to_move`: append a square holding only position and letter. -/
def add_sqr_to_move (row col : Nat) (letter : Char) (curr_move : List Square) :
    List Square :=
  curr_move ++ [{ uninitSquare with row := row, col := col, letter := letter }]

/-- Point value of a letter: `global_tiles[letter - 'A'].points` guarded by
`isupper` (blanks, recorded lowercase, score 0). -/
def letterPts (tiles : List Nat) (c : Char) : Nat :=
  if cIsUpper c then tiles.getD (c.toNat - 65) 0 else 0

/-- Upward `while` loop of `calc_col_cross_pts`, starting at `row - 1`. -/
def upScanPts (tiles : List Nat) (board : SquareGrid) (col : Nat) : Nat → Nat
  | 0 => 0
  | r + 1 =>
    if (getSq board (r + 1) col).type ≠ SquareType.outside ∧
        (getSq board (r + 1) col).letter ≠ '.' then
      letterPts tiles (getSq board (r + 1) col).letter + upScanPts tiles board col r
    else 0

/-- Downward `while` loop of `calc_col_cross_pts`, starting at `row + 1`. -/
def downScanPts (tiles : List Nat) (board : SquareGrid) (col : Nat) :
    Nat → Nat → Nat
  | _, 0 => 0
  | r, fuel + 1 =>
    if (getSq board r col).type ≠ SquareType.outside ∧
        (getSq board r col).letter ≠ '.' then
      letterPts tiles (getSq board r col).letter + downScanPts tiles board col (r + 1) fuel
    else 0

/-- `calc_col_cross_pts`: points of the contiguous tiles directly above and
below `(row, col)`. -/
def calc_col_cross_pts (tiles : List Nat) (board : SquareGrid) (row col : Nat) :
    Nat :=
  upScanPts tiles board col (row - 1) + downScanPts tiles board col (row + 1) SCAN_FUEL

/-- One iteration of the main loop of `calc_across_pts`.  The accumulator is
`(row_pts, total_cross_pts, num_double_word, num_triple_word)`. -/
def acrossSqrStep (tiles : List Nat) (board : SquareGrid)
    (acc : Nat × Nat × Nat × Nat) (sqr : Square) : Nat × Nat × Nat × Nat :=
  let row := sqr.row
  let col := sqr.col
  let lp0 := letterPts tiles sqr.letter
  let lp :=
    if (getSq board row col).type = SquareType.double_letter then lp0 * 2
    else if (getSq board row col).type = SquareType.triple_letter then lp0 * 3
    else lp0
  let ccp0 : Nat :=
    if (getSq board (row - 1) col).letter ≠ '.' ∨
       (getSq board (row + 1) col).letter ≠ '.' then
      calc_col_cross_pts tiles board row col + lp
    else 0
  let step :=
    if (getSq board row col).type = SquareType.double_word then
      (ccp0 * 2, acc.2.2.1 + 1, acc.2.2.2)
    else if (getSq board row col).type = SquareType.triple_word then
      (ccp0 * 3, acc.2.2.1, acc.2.2.2 + 1)
    else (ccp0, acc.2.2.1, acc.2.2.2)
  (acc.1 + lp, acc.2.1 + step.1, step.2.1, step.2.2)

/-- Leftward `while` loop of `calc_across_pts`, starting at the column left
of the move's first square. -/
def leftScanPts (tiles : List Nat) (board : SquareGrid) (row : Nat) : Nat → Nat
  | 0 => 0
  | c + 1 =>
    if (getSq board row (c + 1)).type ≠ SquareType.outside ∧
        (getSq board row (c + 1)).letter ≠ '.' then
      letterPts tiles (getSq board row (c + 1)).letter + leftScanPts tiles board row c
    else 0

/-- Middle loop of `calc_across_pts`: every column from the first to the last
placed square, unconditionally (only `isupper` letters score). -/
def midScanPts (tiles : List Nat) (board : SquareGrid) (row lo hi : Nat) : Nat :=
  ((List.range (hi + 1 - lo)).map fun i =>
    letterPts tiles (getSq board row (lo + i)).letter).sum

/-- Rightward `while` loop of `calc_across_pts`, starting right of the last
placed square. -/
def rightScanPts (tiles : List Nat) (board : SquareGrid) (row : Nat) :
    Nat → Nat → Nat
  | _, 0 => 0
  | c, fuel + 1 =>
    if (getSq board row c).type ≠ SquareType.outside ∧
        (getSq board row c).letter ≠ '.' then
      letterPts tiles (getSq board row c).letter + rightScanPts tiles board row (c + 1) fuel
    else 0

/-- The `for (int i = 1; i <= num_double_word; i++) row_pts *= 2;` loop. -/
def applyDoubleWord : Nat → Nat → Nat
  | p, 0 => p
  | p, n + 1 => applyDoubleWord (p * 2) n

/-- The `for (int i = 1; i <= num_triple_word; i++) row_pts *= 3;` loop. -/
def applyTripleWord : Nat → Nat → Nat
  | p, 0 => p
  | p, n + 1 => applyTripleWord (p * 3) n

/-- `calc_across_pts`: score of an across move against the board state
before the move is committed.  An empty move scores 0. -/
def calc_across_pts (tiles : List Nat) (board : SquareGrid)
    (across_move : List Square) : Nat :=
  match across_move with
  | [] => 0
  | first :: _ =>
    let acc := across_move.foldl (acrossSqrStep tiles board) (0, 0, 0, 0)
    let row := first.row
    let lastCol := (across_move.getLastD outsideSquare).col
    let row_pts1 := acc.1 + leftScanPts tiles board row (first.col - 1)
    let row_pts2 := row_pts1 + midScanPts tiles board row first.col lastCol
    let row_pts3 := row_pts2 + rightScanPts tiles board row (lastCol + 1) SCAN_FUEL
    let row_pts4 := applyTripleWord (applyDoubleWord row_pts3 acc.2.2.1) acc.2.2.2
    if across_move.length ≥ 7 then row_pts4 + acc.2.1 + 50
    else row_pts4 + acc.2.1

/-- The C++ comparison `curr_move.size() >= (unsigned int) min_word_length`:
the `int` is converted to a 32-bit unsigned value. -/
def uintCast (i : Int) : Nat := (i % (2 ^ 32 : Int)).toNat

/-- One iteration of the children loop of `extend_right` (`recur` is the
recursive call with one unit of fuel consumed).  The state threads
`(rack, curr_move, best)`: the rack tile is taken and put back, and the
square appended to the move is popped again, exactly as in the source;
the `else if` makes the blank branch an alternative to the real-letter
branch, not a successor of it. -/
def erChildStep (tiles : List Nat) (board : SquareGrid)
    (recur : List Int → TrieNode → Square → Int → List Square →
      List Square × Nat → List Square × Nat)
    (sqr : Square) (minw : Int)
    (st : List Int × List Square × (List Square × Nat)) (child : TrieNode) :
    List Int × List Square × (List Square × Nat) :=
  if st.1.getD (child.letter.toNat - 65) 0 > 0 ∧
      sqr.down_cross_check.getD (child.letter.toNat - 65) false = true then
    ((st.1.set (child.letter.toNat - 65)
        (st.1.getD (child.letter.toNat - 65) 0 - 1)).set (child.letter.toNat - 65)
        ((st.1.set (child.letter.toNat - 65)
            (st.1.getD (child.letter.toNat - 65) 0 - 1)).getD
          (child.letter.toNat - 65) 0 + 1),
      (add_sqr_to_move sqr.row sqr.col child.letter st.2.1).dropLast,
      recur
        (st.1.set (child.letter.toNat - 65)
          (st.1.getD (child.letter.toNat - 65) 0 - 1)) child
        (getSq board sqr.row (sqr.col + 1)) minw
        (add_sqr_to_move sqr.row sqr.col child.letter st.2.1) st.2.2)
  else if st.1.getD 26 0 > 0 ∧
      sqr.down_cross_check.getD (child.letter.toNat - 65) false = true then
    ((st.1.set 26 (st.1.getD 26 0 - 1)).set 26
        ((st.1.set 26 (st.1.getD 26 0 - 1)).getD 26 0 + 1),
      (add_sqr_to_move sqr.row sqr.col (cToLower child.letter) st.2.1).dropLast,
      recur (st.1.set 26 (st.1.getD 26 0 - 1)) child
        (getSq board sqr.row (sqr.col + 1)) minw
        (add_sqr_to_move sqr.row sqr.col (cToLower child.letter) st.2.1) st.2.2)
  else st

/-- `extend_right`, with an explicit fuel bound on the recursion depth (each
recursive call moves one column to the right; the sentinel ring stops the
real program, so any fuel beyond the board width plus ring is equivalent). -/
def extend_right (tiles : List Nat) (board : SquareGrid) :
    Nat → List Int → TrieNode → Square → Int → List Square →
    List Square × Nat → List Square × Nat
  | 0, _, _, _, _, _, best => best
  | fuel + 1, rack, node, curr_square, min_word_length, curr_move, best =>
    let sqr := getSq board curr_square.row curr_square.col
    if sqr.type = SquareType.outside then best
    else if sqr.letter = '.' then
      let best1 :=
        if node.is_terminal_node = true ∧
           curr_move.length ≥ uintCast min_word_length then
          let curr_pts := calc_across_pts tiles board curr_move
          if curr_pts > best.2 then (curr_move, curr_pts) else best
        else best
      (node.children.foldl
        (erChildStep tiles board
          (fun rk nd cs mw mv bst => extend_right tiles board fuel rk nd cs mw mv bst)
          sqr min_word_length)
        (rack, curr_move, best1)).2.2
    else
      let sqr_letter_index := (cToUpper sqr.letter).toNat - 65
      let child_index := node.letter_indexes.getD sqr_letter_index (-1)
      if child_index ≠ -1 then
        let next := getSq board curr_square.row (curr_square.col + 1)
        extend_right tiles board fuel rack
          (node.children.getD child_index.toNat (newTrieNode '*'))
          next min_word_length curr_move best
      else best

/-- Fuel passed to `extend_right` by its callers; ample for the 17-wide
bordered board. -/
def ER_FUEL : Nat := 32

/-- `find_best_across_move`: run `extend_right` from every interior square
whose `min_across_word_length` is at most the rack size and not `-1`,
threading the shared best move and score; only the move is returned. -/
def find_best_across_move (tiles : List Nat) (board : SquareGrid)
    (rack : List Int) (root : TrieNode) : List Square :=
  ((List.range NUM_BOARD_ROWS).foldl
    (fun best r0 =>
      (List.range NUM_BOARD_COLS).foldl
        (fun best c0 =>
          if (getSq board (r0 + 1) (c0 + 1)).min_across_word_length ≤
                (NUM_RACK_TILES : Int) ∧
              (getSq board (r0 + 1) (c0 + 1)).min_across_word_length ≠ -1 then
            extend_right tiles board ER_FUEL rack root
              (getSq board (r0 + 1) (c0 + 1))
              (getSq board (r0 + 1) (c0 + 1)).min_across_word_length [] best
          else best)
        best)
    (([] : List Square), (0 : Nat))).1

/-- `invert_board`: transpose the interior of the board (fixing each square's
stored coordinates), then recompute cross-checks and minimum lengths. -/
def invert_board (words : List (List Char)) (board : SquareGrid) : SquareGrid :=
  update_min_across_word_length
    (update_down_cross_checks words
      ((List.range NUM_BOARD_ROWS).foldl
        (fun ib r0 =>
          (List.range NUM_BOARD_COLS).foldl
            (fun ib c0 =>
              setSq ib (r0 + 1) (c0 + 1)
                { getSq board (c0 + 1) (r0 + 1) with
                    row := r0 + 1, col := c0 + 1 })
            ib)
        board))

/-- `invert_move`: swap the row and column of every square of a move. -/
def invert_move (across_move : List Square) : List Square :=
  across_move.map fun s => { s with row := s.col, col := s.row }

/-- `find_best_down_move`: the across search on the inverted board, with the
result transposed back. -/
def find_best_down_move (tiles : List Nat) (words : List (List Char))
    (root : TrieNode) (board : SquareGrid) (rack : List Int) : List Square :=
  invert_move (find_best_across_move tiles (invert_board words board) rack root)

/-- `calc_down_pts`: score a down move by scoring its transpose on the
inverted board. -/
def calc_down_pts (tiles : List Nat) (words : List (List Char))
    (board : SquareGrid) (down_move : List Square) : Nat :=
  calc_across_pts tiles (invert_board words board) (invert_move down_move)

/-- The interior squares `(row, col)`, rows 1..15 then columns 1..15, in the
order the double loop of `find_best_move` scans them for an occupied tile. -/
def interiorCells : List (Nat × Nat) :=
  (List.range NUM_BOARD_ROWS).foldr
    (fun r0 acc =>
      ((List.range NUM_BOARD_COLS).map fun c0 => (r0 + 1, c0 + 1)) ++ acc) []

def mid_row : Nat := NUM_BOARD_ROWS / 2 + 1
def mid_col : Nat := NUM_BOARD_COLS / 2 + 1

/-- The per-column minimum-length assignment of the empty-board branch of
`find_best_move`: write `mid_col - col + 1` at `(mid_row, col)`, and force
the center square to 2 when `col` is the center column. -/
def opening_assign (board : SquareGrid) (col : Nat) : SquareGrid :=
  if col = mid_col then
    setMin (setMin board mid_row col ((mid_col : Int) - (col : Int) + 1))
      mid_row mid_col 2
  else setMin board mid_row col ((mid_col : Int) - (col : Int) + 1)

/-- One iteration of the empty-board loop of `find_best_move`: assign the
minimum length, then call `extend_right` when it is at most the rack size
and not `-1`.  The board copy accumulates the assignments. -/
def opening_step (tiles : List Nat) (root : TrieNode) (rack : List Int)
    (st : SquareGrid × (List Square × Nat)) (col : Nat) :
    SquareGrid × (List Square × Nat) :=
  (opening_assign st.1 col,
    if (getSq (opening_assign st.1 col) mid_row col).min_across_word_length ≤
          (NUM_RACK_TILES : Int) ∧
        (getSq (opening_assign st.1 col) mid_row
            col).min_across_word_length ≠ -1 then
      extend_right tiles (opening_assign st.1 col) ER_FUEL rack root
        (getSq (opening_assign st.1 col) mid_row col)
        (getSq (opening_assign st.1 col) mid_row col).min_across_word_length
        [] st.2
    else st.2)

/-- `find_best_move`.  If some interior square holds a tile, compare the best
across and best down moves (recomputing both scores) and pick the higher,
ties going to the second (`else`) branch.  Otherwise run the empty-board
opening loop over the columns at or left of the center of the center row.
`best` is the caller's `(best_move, best_pts)` pair passed by reference. -/
def find_best_move (tiles : List Nat) (words : List (List Char))
    (root : TrieNode) (board : SquareGrid) (rack : List Int)
    (best : List Square × Nat) : List Square × Nat :=
  match interiorCells.find? (fun rc => (getSq board rc.1 rc.2).letter ≠ '.') with
  | some _ =>
    if calc_across_pts tiles board (find_best_across_move tiles board rack root) >
        calc_down_pts tiles words board
          (find_best_down_move tiles words root board rack) then
      (find_best_across_move tiles board rack root,
        calc_across_pts tiles board (find_best_across_move tiles board rack root))
    else
      (find_best_down_move tiles words root board rack,
        calc_down_pts tiles words board
          (find_best_down_move tiles words root board rack))
  | none =>
    (((List.range mid_col).map (· + 1)).foldl (opening_step tiles root rack)
      (board, best)).2

/-- `add_move_to_board`: write each move square into the board wholesale
(`board[row][col] = _move[i]` assigns the entire `Square`), then recompute
cross-checks and minimum lengths. -/
def add_move_to_board (words : List (List Char)) (board : SquareGrid)
    (mv : List Square) : SquareGrid :=
  update_min_across_word_length
    (update_down_cross_checks words
      (mv.foldl (fun b s => setSq b s.row s.col s) board))

/-! ## List and grid access lemmas -/

theorem getD_set_self {α : Type} (l : List α) (i : Nat) (a d : α)
    (h : i < l.length) : (l.set i a).getD i d = a := by
  simp [List.getD, List.getElem?_set_self, h]

theorem getD_set_ne {α : Type} (l : List α) (i j : Nat) (a d : α)
    (h : i ≠ j) : (l.set i a).getD j d = l.getD j d := by
  simp [List.getD, List.getElem?_set_ne, h]

theorem set_getD_self {α : Type} (l : List α) (i : Nat) (d : α)
    (h : i < l.length) : l.set i (l.getD i d) = l := by
  induction l generalizing i with
  | nil => simp at h
  | cons x xs ih =>
    cases i with
    | zero => simp [List.getD]
    | succ j =>
      simp only [List.set, List.getD_cons_succ]
      rw [ih]
      exact Nat.lt_of_succ_lt_succ h

theorem getSq_setSq_ne (b : SquareGrid) (r c : Nat) (s : Square) (r' c' : Nat)
    (h : r ≠ r' ∨ c ≠ c') : getSq (setSq b r c s) r' c' = getSq b r' c' := by
  unfold getSq setSq
  rcases h with h | h
  · rw [getD_set_ne _ _ _ _ _ h]
  · by_cases hr : r = r'
    · subst hr
      by_cases hlen : r < b.length
      · rw [getD_set_self _ _ _ _ hlen, getD_set_ne _ _ _ _ _ h]
      · rw [List.set_eq_of_length_le (Nat.le_of_not_lt hlen)]
    · rw [getD_set_ne _ _ _ _ _ hr]

theorem getSq_setSq_self (b : SquareGrid) (r c : Nat) (s : Square)
    (hr : r < b.length) (hc : c < (b.getD r []).length) :
    getSq (setSq b r c s) r c = s := by
  unfold getSq setSq
  rw [getD_set_self _ _ _ _ hr, getD_set_self _ _ _ _ hc]

theorem setSq_out_of_bounds (b : SquareGrid) (r c : Nat) (s : Square)
    (h : ¬(r < b.length ∧ c < (b.getD r []).length)) : setSq b r c s = b := by
  unfold setSq
  by_cases hr : r < b.length
  · have hc : (b.getD r []).length ≤ c := by
      rcases Nat.lt_or_ge c (b.getD r []).length with h1 | h1
      · exact absurd ⟨hr, h1⟩ h
      · exact h1
    rw [List.set_eq_of_length_le hc, set_getD_self _ _ _ hr]
  · exact List.set_eq_of_length_le (Nat.le_of_not_lt hr)

/-- All fields of two squares agree except possibly `down_cross_check`. -/
def sameButCC (s t : Square) : Prop :=
  s.type = t.type ∧ s.letter = t.letter ∧ s.row = t.row ∧ s.col = t.col ∧
    s.min_across_word_length = t.min_across_word_length

theorem sameButCC_refl (s : Square) : sameButCC s s :=
  ⟨rfl, rfl, rfl, rfl, rfl⟩

theorem sameButCC_trans {s t u : Square} (h1 : sameButCC s t)
    (h2 : sameButCC t u) : sameButCC s u := by
  obtain ⟨a1, a2, a3, a4, a5⟩ := h1
  obtain ⟨b1, b2, b3, b4, b5⟩ := h2
  exact ⟨a1.trans b1, a2.trans b2, a3.trans b3, a4.trans b4, a5.trans b5⟩

/-- All fields of two squares agree except possibly `min_across_word_length`. -/
def sameButMin (s t : Square) : Prop :=
  s.type = t.type ∧ s.letter = t.letter ∧ s.row = t.row ∧ s.col = t.col ∧
    s.down_cross_check = t.down_cross_check

theorem sameButMin_refl (s : Square) : sameButMin s s :=
  ⟨rfl, rfl, rfl, rfl, rfl⟩

theorem sameButMin_trans {s t u : Square} (h1 : sameButMin s t)
    (h2 : sameButMin t u) : sameButMin s u := by
  obtain ⟨a1, a2, a3, a4, a5⟩ := h1
  obtain ⟨b1, b2, b3, b4, b5⟩ := h2
  exact ⟨a1.trans b1, a2.trans b2, a3.trans b3, a4.trans b4, a5.trans b5⟩

/-- The cross-check update of a single square changes no other square. -/
theorem updateOneCrossCheck_getSq_ne (words : List (List Char)) (b : SquareGrid)
    (r c r' c' : Nat) (h : r ≠ r' ∨ c ≠ c') :
    getSq (updateOneCrossCheck words b r c) r' c' = getSq b r' c' := by
  by_cases h1 : (getSq b r c).letter = '.'
  · by_cases h2 : aboveFrag b c (r - 1) = [] ∧ belowFrag b c (r + 1) SCAN_FUEL = []
    · simp [updateOneCrossCheck, h1, h2]
    · simp only [updateOneCrossCheck, h1, if_true, h2, if_false, setCC]
      exact getSq_setSq_ne _ _ _ _ _ _ h
  · simp [updateOneCrossCheck, h1]

/-- The cross-check update of a single square can change only the
`down_cross_check` field of any square. -/
theorem updateOneCrossCheck_sameButCC (words : List (List Char)) (b : SquareGrid)
    (r c r' c' : Nat) :
    sameButCC (getSq (updateOneCrossCheck words b r c) r' c') (getSq b r' c') := by
  by_cases h : r ≠ r' ∨ c ≠ c'
  · rw [updateOneCrossCheck_getSq_ne _ _ _ _ _ _ h]
    exact sameButCC_refl _
  · push_neg at h
    obtain ⟨rfl, rfl⟩ := h
    by_cases h1 : (getSq b r c).letter = '.'
    · by_cases h2 : aboveFrag b c (r - 1) = [] ∧ belowFrag b c (r + 1) SCAN_FUEL = []
      · simp only [updateOneCrossCheck, h1, if_true, h2, if_false]
        exact sameButCC_refl _
      · simp only [updateOneCrossCheck, h1, if_true, h2, if_false, setCC]
        by_cases hb : r < b.length ∧ c < (b.getD r []).length
        · rw [getSq_setSq_self _ _ _ _ hb.1 hb.2]
          exact ⟨rfl, h1.symm, rfl, rfl, rfl⟩
        · rw [setSq_out_of_bounds _ _ _ _ hb]
          exact sameButCC_refl _
    · simp only [updateOneCrossCheck, h1, if_false]
      exact sameButCC_refl _

/-- `setMin` changes no other square. -/
theorem setMin_getSq_ne (b : SquareGrid) (r c : Nat) (v : Int) (r' c' : Nat)
    (h : r ≠ r' ∨ c ≠ c') : getSq (setMin b r c v) r' c' = getSq b r' c' :=
  getSq_setSq_ne _ _ _ _ _ _ h

/-- `setMin` can change only the `min_across_word_length` field of any
square. -/
theorem setMin_sameButMin (b : SquareGrid) (r c : Nat) (v : Int) (r' c' : Nat) :
    sameButMin (getSq (setMin b r c v) r' c') (getSq b r' c') := by
  by_cases h : r ≠ r' ∨ c ≠ c'
  · rw [setMin_getSq_ne _ _ _ _ _ _ h]
    exact sameButMin_refl _
  · push_neg at h
    obtain ⟨rfl, rfl⟩ := h
    unfold setMin
    by_cases hb : r < b.length ∧ c < (b.getD r []).length
    · rw [getSq_setSq_self _ _ _ _ hb.1 hb.2]
      exact ⟨rfl, rfl, rfl, rfl, rfl⟩
    · rw [setSq_out_of_bounds _ _ _ _ hb]
      exact sameButMin_refl _

/-! ## Characterizing the cross-check pass -/

/-- The cross-check pass viewed as a single fold over a list of cells
(proof-internal reshaping of the nested row/column loops). -/
def ccCellFold (words : List (List Char)) (cells : List (Nat × Nat))
    (b : SquareGrid) : SquareGrid :=
  cells.foldl (fun b rc => updateOneCrossCheck words b rc.1 rc.2) b

theorem cellBlocks_init (init : List (Nat × Nat)) (l : List Nat) :
    l.foldr
        (fun r0 acc =>
          ((List.range NUM_BOARD_COLS).map fun c0 => (r0 + 1, c0 + 1)) ++ acc)
        init =
      l.foldr
        (fun r0 acc =>
          ((List.range NUM_BOARD_COLS).map fun c0 => (r0 + 1, c0 + 1)) ++ acc)
        [] ++ init := by
  induction l with
  | nil => simp
  | cons x xs ih => simp [ih]

theorem update_cc_eq_ccCellFold (words : List (List Char)) (b : SquareGrid) :
    update_down_cross_checks words b = ccCellFold words interiorCells b := by
  unfold update_down_cross_checks interiorCells ccCellFold
  have key : ∀ (n : Nat) (b : SquareGrid),
      (List.range n).foldl
        (fun b r0 =>
          (List.range NUM_BOARD_COLS).foldl
            (fun b c0 => updateOneCrossCheck words b (r0 + 1) (c0 + 1)) b) b =
      ((List.range n).foldr
        (fun r0 acc =>
          ((List.range NUM_BOARD_COLS).map fun c0 => (r0 + 1, c0 + 1)) ++ acc) []).foldl
        (fun b rc => updateOneCrossCheck words b rc.1 rc.2) b := by
    intro n
    induction n with
    | zero => intro b; simp
    | succ m ih =>
      intro b
      rw [List.range_succ, List.foldr_append, List.foldl_append, ih]
      simp only [List.foldr_cons, List.foldr_nil, List.append_nil]
      rw [cellBlocks_init
        (List.map (fun c0 => (m + 1, c0 + 1)) (List.range NUM_BOARD_COLS))
        (List.range m)]
      rw [List.foldl_append]
      simp [List.foldl_map]
  exact key NUM_BOARD_ROWS b

theorem ccCellFold_getSq_ne (words : List (List Char)) (r c : Nat) :
    ∀ (cells : List (Nat × Nat)) (b : SquareGrid),
      (∀ rc ∈ cells, rc ≠ (r, c)) →
      getSq (ccCellFold words cells b) r c = getSq b r c := by
  intro cells
  induction cells with
  | nil => intro b _; rfl
  | cons rc rest ih =>
    intro b hne
    have h1 : rc ≠ (r, c) := hne rc (List.mem_cons_self _ _)
    have h2 : rc.1 ≠ r ∨ rc.2 ≠ c := by
      by_contra hc
      push_neg at hc
      exact h1 (Prod.ext hc.1 hc.2)
    unfold ccCellFold
    rw [List.foldl_cons]
    have := ih (updateOneCrossCheck words b rc.1 rc.2)
      (fun x hx => hne x (List.mem_cons_of_mem _ hx))
    unfold ccCellFold at this
    rw [this, updateOneCrossCheck_getSq_ne _ _ _ _ _ _ h2]

theorem ccCellFold_sameButCC (words : List (List Char)) (r c : Nat) :
    ∀ (cells : List (Nat × Nat)) (b : SquareGrid),
      sameButCC (getSq (ccCellFold words cells b) r c) (getSq b r c) := by
  intro cells
  induction cells with
  | nil => intro b; exact sameButCC_refl _
  | cons rc rest ih =>
    intro b
    unfold ccCellFold
    rw [List.foldl_cons]
    have h1 := ih (updateOneCrossCheck words b rc.1 rc.2)
    unfold ccCellFold at h1
    exact sameButCC_trans h1 (updateOneCrossCheck_sameButCC _ _ _ _ _ _)

/-- `aboveFrag` depends only on letters and types. -/
theorem aboveFrag_congr (b b' : SquareGrid)
    (h : ∀ r c, sameButCC (getSq b' r c) (getSq b r c)) (c : Nat) :
    ∀ k, aboveFrag b' c k = aboveFrag b c k := by
  intro k
  induction k with
  | zero => rfl
  | succ m ih =>
    unfold aboveFrag
    rw [(h (m + 1) c).2.1, (h (m + 1) c).1, ih]

/-- `belowFrag` depends only on letters and types. -/
theorem belowFrag_congr (b b' : SquareGrid)
    (h : ∀ r c, sameButCC (getSq b' r c) (getSq b r c)) (c : Nat) :
    ∀ fuel r, belowFrag b' c r fuel = belowFrag b c r fuel := by
  intro fuel
  induction fuel with
  | zero => intro r; rfl
  | succ m ih =>
    intro r
    unfold belowFrag
    rw [(h r c).2.1, (h r c).1, ih]

/-- Shapes (outer length and every row length) are preserved by `setSq`. -/
theorem setSq_shape (b : SquareGrid) (r c : Nat) (s : Square) :
    (setSq b r c s).length = b.length ∧
      ∀ r', ((setSq b r c s).getD r' []).length = (b.getD r' []).length := by
  constructor
  · exact List.length_set ..
  · intro r'
    by_cases hr : r = r'
    · subst hr
      by_cases hlen : r < b.length
      · rw [show (setSq b r c s).getD r [] = (b.getD r []).set c s from
          getD_set_self _ _ _ _ hlen]
        exact List.length_set ..
      · unfold setSq
        rw [List.set_eq_of_length_le (Nat.le_of_not_lt hlen)]
    · unfold setSq
      rw [getD_set_ne _ _ _ _ _ hr]

theorem updateOneCrossCheck_shape (words : List (List Char)) (b : SquareGrid)
    (r c : Nat) :
    (updateOneCrossCheck words b r c).length = b.length ∧
      ∀ r', ((updateOneCrossCheck words b r c).getD r' []).length =
        ((b.getD r' []).length) := by
  by_cases h1 : (getSq b r c).letter = '.'
  · by_cases h2 : aboveFrag b c (r - 1) = [] ∧ belowFrag b c (r + 1) SCAN_FUEL = []
    · simp [updateOneCrossCheck, h1, h2]
    · simp only [updateOneCrossCheck, h1, if_true, h2, if_false, setCC]
      exact setSq_shape _ _ _ _
  · simp [updateOneCrossCheck, h1]

theorem ccCellFold_shape (words : List (List Char)) :
    ∀ (cells : List (Nat × Nat)) (b : SquareGrid),
      (ccCellFold words cells b).length = b.length ∧
        ∀ r', ((ccCellFold words cells b).getD r' []).length =
          (b.getD r' []).length := by
  intro cells
  induction cells with
  | nil => intro b; exact ⟨rfl, fun _ => rfl⟩
  | cons rc rest ih =>
    intro b
    unfold ccCellFold
    rw [List.foldl_cons]
    have h1 := ih (updateOneCrossCheck words b rc.1 rc.2)
    unfold ccCellFold at h1
    have h2 := updateOneCrossCheck_shape words b rc.1 rc.2
    exact ⟨h1.1.trans h2.1, fun r' => (h1.2 r').trans (h2.2 r')⟩

/-- What one cross-check step does at its own cell, stated against the
input board. -/
theorem updateOneCrossCheck_getSq_self (words : List (List Char))
    (b : SquareGrid) (r c : Nat) :
    getSq (updateOneCrossCheck words b r c) r c =
      if (getSq b r c).letter = '.' ∧
          ¬(aboveFrag b c (r - 1) = [] ∧ belowFrag b c (r + 1) SCAN_FUEL = []) ∧
          r < b.length ∧ c < (b.getD r []).length then
        { getSq b r c with
            down_cross_check :=
              crossCheckBits words (aboveFrag b c (r - 1))
                (belowFrag b c (r + 1) SCAN_FUEL) }
      else getSq b r c := by
  by_cases h1 : (getSq b r c).letter = '.'
  · by_cases h2 : aboveFrag b c (r - 1) = [] ∧ belowFrag b c (r + 1) SCAN_FUEL = []
    · simp [updateOneCrossCheck, h1, h2]
    · by_cases hb : r < b.length ∧ c < (b.getD r []).length
      · rw [if_pos ⟨h1, h2, hb⟩]
        simp only [updateOneCrossCheck, h1, if_true, h2, if_false, setCC]
        exact getSq_setSq_self _ _ _ _ hb.1 hb.2
      · rw [if_neg (by tauto)]
        simp only [updateOneCrossCheck, h1, if_true, h2, if_false, setCC]
        exact congrArg (fun g => getSq g r c) (setSq_out_of_bounds _ _ _ _ hb) |>.trans rfl
  · simp [updateOneCrossCheck, h1]

/-- The cross-check cell fold at a cell that occurs exactly once in the
cell list, characterized against the input board. -/
theorem ccCellFold_char (words : List (List Char)) (r c : Nat) :
    ∀ (cells : List (Nat × Nat)) (b : SquareGrid),
      cells.count (r, c) = 1 →
      getSq (ccCellFold words cells b) r c =
        if (getSq b r c).letter = '.' ∧
            ¬(aboveFrag b c (r - 1) = [] ∧
              belowFrag b c (r + 1) SCAN_FUEL = []) ∧
            r < b.length ∧ c < (b.getD r []).length then
          { getSq b r c with
              down_cross_check :=
                crossCheckBits words (aboveFrag b c (r - 1))
                  (belowFrag b c (r + 1) SCAN_FUEL) }
        else getSq b r c := by
  intro cells
  induction cells with
  | nil => intro b h; simp at h
  | cons rc rest ih =>
    rcases rc with ⟨a, d⟩
    intro b hcount
    rw [List.count_cons] at hcount
    simp only [beq_iff_eq, Prod.mk.injEq] at hcount
    by_cases heq : a = r ∧ d = c
    · obtain ⟨rfl, rfl⟩ := heq
      have hrest : rest.count (a, d) = 0 := by
        rw [if_pos ⟨rfl, rfl⟩] at hcount
        omega
      have hnotin : ∀ x ∈ rest, x ≠ (a, d) := by
        intro x hx hxeq
        rw [List.count_eq_zero] at hrest
        exact hrest (hxeq ▸ hx)
      unfold ccCellFold
      rw [List.foldl_cons]
      have huntouched := ccCellFold_getSq_ne words a d rest
        (updateOneCrossCheck words b a d) hnotin
      unfold ccCellFold at huntouched
      rw [huntouched]
      exact updateOneCrossCheck_getSq_self words b a d
    · have hcount' : rest.count (r, c) = 1 := by
        rw [if_neg heq] at hcount
        omega
      have hne : a ≠ r ∨ d ≠ c := not_and_or.mp heq
      unfold ccCellFold
      rw [List.foldl_cons]
      have ihb := ih (updateOneCrossCheck words b a d) hcount'
      unfold ccCellFold at ihb
      rw [ihb]
      have hsame : ∀ r' c',
          sameButCC (getSq (updateOneCrossCheck words b a d) r' c')
            (getSq b r' c') :=
        fun r' c' => updateOneCrossCheck_sameButCC words b a d r' c'
      have hcell := updateOneCrossCheck_getSq_ne words b a d r c hne
      have habove := aboveFrag_congr b _ hsame c (r - 1)
      have hbelow := belowFrag_congr b _ hsame c SCAN_FUEL (r + 1)
      have hshape := updateOneCrossCheck_shape words b a d
      rw [hcell, habove, hbelow, hshape.1, hshape.2 r]

set_option maxRecDepth 1000000 in
theorem interiorCells_count (r c : Nat) (h1 : 1 ≤ r) (h2 : r ≤ 15)
    (h3 : 1 ≤ c) (h4 : c ≤ 15) : interiorCells.count (r, c) = 1 := by
  have key : ∀ r' < 16, ∀ c' < 16, 1 ≤ r' → 1 ≤ c' →
      interiorCells.count (r', c') = 1 := by decide
  exact key r (by omega) c (by omega) h1 h3

/-- Value of bit `i` of a cross-check vector. -/
theorem crossCheckBits_getD (words : List (List Char)) (above below : List Char)
    (i : Nat) (h : i < 26) :
    (crossCheckBits words above below).getD i false = true ↔
      (above ++ Char.ofNat (65 + i) :: below) ∈ words := by
  unfold crossCheckBits
  simp only [List.getD, List.get?_eq_getElem?, List.getElem?_map]
  rw [show (List.range 26)[i]? = some i by simp [List.getElem?_range, h]]
  simp only [Option.map_some', Option.getD_some]
  exact List.elem_iff

/-- **C1 (amended): the cross-check recomputation at one empty cell.**
If both perpendicular fragments are empty, the cell (its cross-check set
included) is left exactly as it was — the pass `continue`s without touching
it.  Otherwise its cross-check set becomes the 26 membership bits of
`above ++ letter ++ below` in the lexicon. -/
theorem update_down_cross_checks_cell_spec (words : List (List Char))
    (board : SquareGrid) (row col : Nat)
    (h1 : 1 ≤ row) (h2 : row ≤ NUM_BOARD_ROWS)
    (h3 : 1 ≤ col) (h4 : col ≤ NUM_BOARD_COLS)
    (hb : row < board.length ∧ col < (board.getD row []).length)
    (hempty : (getSq board row col).letter = '.') :
    ((aboveFrag board col (row - 1) = [] ∧
        belowFrag board col (row + 1) SCAN_FUEL = []) →
      getSq (update_down_cross_checks words board) row col =
        getSq board row col) ∧
    (¬(aboveFrag board col (row - 1) = [] ∧
        belowFrag board col (row + 1) SCAN_FUEL = []) →
      getSq (update_down_cross_checks words board) row col =
        { getSq board row col with
            down_cross_check :=
              crossCheckBits words (aboveFrag board col (row - 1))
                (belowFrag board col (row + 1) SCAN_FUEL) }) := by
  have hcount := interiorCells_count row col h1 h2 h3 h4
  have hchar := ccCellFold_char words row col interiorCells board hcount
  rw [update_cc_eq_ccCellFold]
  constructor
  · intro hfrags
    rw [hchar, if_neg (fun hcond => hcond.2.1 hfrags)]
  · intro hfrags
    rw [hchar, if_pos ⟨hempty, hfrags, hb⟩]

/-- Witness board for the C1 theorems: an empty 17×17 board whose sentinel
ring is `outside`; the cross-check set of the center square `(8,8)` is all
`false`, every other interior square has an all-`true` set.  (A state of
this shape is reachable in the program: place tiles above and below a cell,
let the pass restrict the cell's set, then remove the tiles and rerun the
pass.) -/
def c1Board : SquareGrid :=
  (List.range 17).map fun r =>
    (List.range 17).map fun c =>
      if r = 0 ∨ r = 16 ∨ c = 0 ∨ c = 16 then
        { type := SquareType.outside, down_cross_check := List.replicate 26 false,
          letter := '.', row := r, col := c, min_across_word_length := -1 }
      else
        { type := SquareType.regular,
          down_cross_check :=
            if r = 8 ∧ c = 8 then List.replicate 26 false
            else List.replicate 26 true,
          letter := '.', row := r, col := c, min_across_word_length := -1 }

/-- **C1 (counterexample).**  On `c1Board`, the cell `(8,8)` is in bounds,
empty, and has empty fragments above and below, yet after
`update_down_cross_checks` its cross-check set is not all-legal: the pass
skips such cells instead of marking all 26 letters legal. -/
theorem c1_counterexample :
    (getSq c1Board 8 8).letter = '.' ∧
    (getSq c1Board 8 8).type ≠ SquareType.outside ∧
    aboveFrag c1Board 8 7 = [] ∧
    belowFrag c1Board 8 9 SCAN_FUEL = [] ∧
    (getSq (update_down_cross_checks ([] : List (List Char)) c1Board) 8
        8).down_cross_check ≠ List.replicate 26 true := by
  refine ⟨by decide, by decide, by decide, by decide, ?_⟩
  rw [update_cc_eq_ccCellFold]
  rw [ccCellFold_char ([] : List (List Char)) 8 8 interiorCells c1Board
    (interiorCells_count 8 8 (by decide) (by decide) (by decide) (by decide))]
  rw [if_neg (by decide)]
  decide

/-! ## Characterizing the minimum-length pass -/

theorem getSq_setMin_self (b : SquareGrid) (r c : Nat) (v : Int)
    (hr : r < b.length) (hc : c < (b.getD r []).length) :
    getSq (setMin b r c v) r c =
      { getSq b r c with min_across_word_length := v } := by
  unfold setMin
  exact getSq_setSq_self _ _ _ _ hr hc

theorem setMin_shape (b : SquareGrid) (r c : Nat) (v : Int) :
    (setMin b r c v).length = b.length ∧
      ∀ r', ((setMin b r c v).getD r' []).length = (b.getD r' []).length :=
  setSq_shape _ _ _ _

/-- The value written at column `c + 1` by one step of the right-to-left
minimum-length scan. -/
def minStepVal (b : SquareGrid) (row c : Nat) (m : Int) : Int :=
  if (getSq b row c).letter ≠ '.' then -1
  else if (getSq b (row - 1) (c + 1)).letter ≠ '.' ∨
          (getSq b (row + 1) (c + 1)).letter ≠ '.' ∨
          (getSq b row (c + 2)).letter ≠ '.' ∨
          (getSq b row (c + 1)).letter ≠ '.' then 1
  else if m = -1 then -1
  else m + 1

/-- The accumulator passed on by one step of the scan. -/
def minStepAcc (b : SquareGrid) (row c : Nat) (m : Int) : Int :=
  if (getSq b row c).letter ≠ '.' then m
  else if (getSq b (row - 1) (c + 1)).letter ≠ '.' ∨
          (getSq b (row + 1) (c + 1)).letter ≠ '.' ∨
          (getSq b row (c + 2)).letter ≠ '.' ∨
          (getSq b row (c + 1)).letter ≠ '.' then 1
  else if m = -1 then m
  else m + 1

theorem minRowScan_succ (row c : Nat) (b : SquareGrid) (m : Int) :
    minRowScan row (c + 1) b m =
      minRowScan row c (setMin b row (c + 1) (minStepVal b row c m))
        (minStepAcc b row c m) := by
  by_cases h1 : (getSq b row c).letter = '.'
  · by_cases h2 : (getSq b (row - 1) (c + 1)).letter ≠ '.' ∨
        (getSq b (row + 1) (c + 1)).letter ≠ '.' ∨
        (getSq b row (c + 2)).letter ≠ '.' ∨
        (getSq b row (c + 1)).letter ≠ '.'
    · simp [minRowScan, minStepVal, minStepAcc, h1, h2]
    · by_cases h3 : m = -1
      · simp [minRowScan, minStepVal, minStepAcc, h1, h2, h3]
      · simp [minRowScan, minStepVal, minStepAcc, h1, h2, h3]
  · simp [minRowScan, minStepVal, minStepAcc, h1]

theorem minRowScan_shape (row : Nat) :
    ∀ (k : Nat) (b : SquareGrid) (m : Int),
      (minRowScan row k b m).length = b.length ∧
        ∀ r', ((minRowScan row k b m).getD r' []).length =
          (b.getD r' []).length := by
  intro k
  induction k with
  | zero => intro b m; exact ⟨rfl, fun _ => rfl⟩
  | succ c ih =>
    intro b m
    rw [minRowScan_succ]
    have h1 := ih (setMin b row (c + 1) (minStepVal b row c m))
      (minStepAcc b row c m)
    have h2 := setMin_shape b row (c + 1) (minStepVal b row c m)
    exact ⟨h1.1.trans h2.1, fun r' => (h1.2 r').trans (h2.2 r')⟩

theorem minRowScan_sameButMin (row : Nat) :
    ∀ (k : Nat) (b : SquareGrid) (m : Int) (r' c' : Nat),
      sameButMin (getSq (minRowScan row k b m) r' c') (getSq b r' c') := by
  intro k
  induction k with
  | zero => intro b m r' c'; exact sameButMin_refl _
  | succ c ih =>
    intro b m r' c'
    rw [minRowScan_succ]
    exact sameButMin_trans (ih _ _ r' c') (setMin_sameButMin _ _ _ _ _ _)

/-- The scan writes only to its own row. -/
theorem minRowScan_other_row (row : Nat) :
    ∀ (k : Nat) (b : SquareGrid) (m : Int) (r' c' : Nat), r' ≠ row →
      getSq (minRowScan row k b m) r' c' = getSq b r' c' := by
  intro k
  induction k with
  | zero => intro b m r' c' _; rfl
  | succ c ih =>
    intro b m r' c' hne
    rw [minRowScan_succ, ih _ _ _ _ hne,
      setMin_getSq_ne _ _ _ _ _ _ (Or.inl (Ne.symm hne))]

/-- The scan with counter `k` writes only to columns `≤ k`. -/
theorem minRowScan_high_col (row : Nat) :
    ∀ (k : Nat) (b : SquareGrid) (m : Int) (c' : Nat), k < c' →
      getSq (minRowScan row k b m) row c' = getSq b row c' := by
  intro k
  induction k with
  | zero => intro b m c' _; rfl
  | succ c ih =>
    intro b m c' hgt
    rw [minRowScan_succ, ih _ _ _ (Nat.lt_of_succ_lt hgt),
      setMin_getSq_ne _ _ _ _ _ _ (Or.inr (by omega))]

/-- A cell whose left neighbour holds a letter is written `-1` by the scan. -/
theorem minRowScan_leftOcc (row : Nat) :
    ∀ (k : Nat) (b : SquareGrid) (m : Int) (col : Nat),
      1 ≤ col → col ≤ k →
      (getSq b row (col - 1)).letter ≠ '.' →
      row < b.length → col < (b.getD row []).length →
      (getSq (minRowScan row k b m) row col).min_across_word_length = -1 := by
  intro k
  induction k with
  | zero => intro b m col h1 h2 _ _ _; omega
  | succ c ih =>
    intro b m col h1 h2 hocc hr hc
    rw [minRowScan_succ]
    by_cases hcol : col = c + 1
    · subst hcol
      rw [minRowScan_high_col row c _ _ _ (Nat.lt_succ_self c)]
      rw [getSq_setMin_self _ _ _ _ hr hc]
      have : minStepVal b row c m = -1 := by
        unfold minStepVal
        rw [if_pos (by simpa using hocc)]
      simp [this]
    · have hcol' : col ≤ c := by omega
      apply ih _ _ _ h1 hcol'
      · rw [(setMin_sameButMin b row (c + 1) _ row (col - 1)).2.1]
        exact hocc
      · rw [(setMin_shape b row (c + 1) _).1]
        exact hr
      · rw [(setMin_shape b row (c + 1) _).2 row]
        exact hc

/-- A cell with an empty left neighbour that touches a letter above, below,
to its right or on itself is written `1` by the scan. -/
theorem minRowScan_adjacent (row : Nat) :
    ∀ (k : Nat) (b : SquareGrid) (m : Int) (col : Nat),
      1 ≤ col → col ≤ k →
      (getSq b row (col - 1)).letter = '.' →
      ((getSq b (row - 1) col).letter ≠ '.' ∨
        (getSq b (row + 1) col).letter ≠ '.' ∨
        (getSq b row (col + 1)).letter ≠ '.' ∨
        (getSq b row col).letter ≠ '.') →
      row < b.length → col < (b.getD row []).length →
      (getSq (minRowScan row k b m) row col).min_across_word_length = 1 := by
  intro k
  induction k with
  | zero => intro b m col h1 h2 _ _ _ _; omega
  | succ c ih =>
    intro b m col h1 h2 hleft hadj hr hc
    rw [minRowScan_succ]
    by_cases hcol : col = c + 1
    · subst hcol
      rw [minRowScan_high_col row c _ _ _ (Nat.lt_succ_self c)]
      rw [getSq_setMin_self _ _ _ _ hr hc]
      have : minStepVal b row c m = 1 := by
        unfold minStepVal
        rw [if_neg (by simpa using hleft)]
        rw [if_pos (by simpa using hadj)]
      simp [this]
    · have hcol' : col ≤ c := by omega
      apply ih _ _ _ h1 hcol'
      · rw [(setMin_sameButMin b row (c + 1) _ row (col - 1)).2.1]
        exact hleft
      · have hs := fun r' c' => (setMin_sameButMin b row (c + 1)
          (minStepVal b row c m) r' c').2.1
        rw [hs (row - 1) col, hs (row + 1) col, hs row (col + 1), hs row col]
        exact hadj
      · rw [(setMin_shape b row (c + 1) _).1]
        exact hr
      · rw [(setMin_shape b row (c + 1) _).2 row]
        exact hc

/-- The minimum-length pass viewed as a fold over a row list. -/
def minRowFold (rows : List Nat) (b : SquareGrid) : SquareGrid :=
  rows.foldl (fun b r0 => minRowScan (r0 + 1) NUM_BOARD_COLS b (-1)) b

theorem update_min_eq_minRowFold (b : SquareGrid) :
    update_min_across_word_length b = minRowFold (List.range NUM_BOARD_ROWS) b :=
  rfl

theorem minRowFold_other (r' c' : Nat) :
    ∀ (rows : List Nat) (b : SquareGrid), (∀ r0 ∈ rows, r0 + 1 ≠ r') →
      getSq (minRowFold rows b) r' c' = getSq b r' c' := by
  intro rows
  induction rows with
  | nil => intro b _; rfl
  | cons r1 rest ih =>
    intro b hne
    unfold minRowFold
    rw [List.foldl_cons]
    have h1 := ih (minRowScan (r1 + 1) NUM_BOARD_COLS b (-1))
      (fun x hx => hne x (List.mem_cons_of_mem _ hx))
    unfold minRowFold at h1
    rw [h1, minRowScan_other_row _ _ _ _ _ _
      (Ne.symm (hne r1 (List.mem_cons_self _ _)))]

theorem minRowFold_sameButMin (r' c' : Nat) :
    ∀ (rows : List Nat) (b : SquareGrid),
      sameButMin (getSq (minRowFold rows b) r' c') (getSq b r' c') := by
  intro rows
  induction rows with
  | nil => intro b; exact sameButMin_refl _
  | cons r1 rest ih =>
    intro b
    unfold minRowFold
    rw [List.foldl_cons]
    have h1 := ih (minRowScan (r1 + 1) NUM_BOARD_COLS b (-1))
    unfold minRowFold at h1
    exact sameButMin_trans h1 (minRowScan_sameButMin _ _ _ _ _ _)

theorem minRowFold_shape :
    ∀ (rows : List Nat) (b : SquareGrid),
      (minRowFold rows b).length = b.length ∧
        ∀ r', ((minRowFold rows b).getD r' []).length = (b.getD r' []).length := by
  intro rows
  induction rows with
  | nil => intro b; exact ⟨rfl, fun _ => rfl⟩
  | cons r1 rest ih =>
    intro b
    unfold minRowFold
    rw [List.foldl_cons]
    have h1 := ih (minRowScan (r1 + 1) NUM_BOARD_COLS b (-1))
    unfold minRowFold at h1
    have h2 := minRowScan_shape (r1 + 1) NUM_BOARD_COLS b (-1)
    exact ⟨h1.1.trans h2.1, fun r' => (h1.2 r').trans (h2.2 r')⟩

theorem minRowFold_leftOcc :
    ∀ (rows : List Nat) (b : SquareGrid) (r0 col : Nat),
      rows.count r0 = 1 → 1 ≤ col → col ≤ NUM_BOARD_COLS →
      (getSq b (r0 + 1) (col - 1)).letter ≠ '.' →
      r0 + 1 < b.length → col < (b.getD (r0 + 1) []).length →
      (getSq (minRowFold rows b) (r0 + 1) col).min_across_word_length = -1 := by
  intro rows
  induction rows with
  | nil => intro b r0 col h _ _ _ _ _; simp at h
  | cons r1 rest ih =>
    intro b r0 col hcount h1 h2 hocc hr hc
    rw [List.count_cons] at hcount
    simp only [beq_iff_eq] at hcount
    unfold minRowFold
    rw [List.foldl_cons]
    by_cases heq : r1 = r0
    · subst heq
      have hrest : rest.count r1 = 0 := by
        rw [if_pos rfl] at hcount
        omega
      have hne : ∀ x ∈ rest, x + 1 ≠ r1 + 1 := by
        intro x hx hxeq
        rw [List.count_eq_zero] at hrest
        have : x = r1 := by omega
        exact hrest (this ▸ hx)
      have h3 := minRowFold_other (r1 + 1) col rest
        (minRowScan (r1 + 1) NUM_BOARD_COLS b (-1)) hne
      unfold minRowFold at h3
      rw [h3]
      exact minRowScan_leftOcc (r1 + 1) NUM_BOARD_COLS b (-1) col h1 h2 hocc hr hc
    · have hcount' : rest.count r0 = 1 := by
        rw [if_neg heq] at hcount
        omega
      have ihb := ih (minRowScan (r1 + 1) NUM_BOARD_COLS b (-1)) r0 col hcount'
        h1 h2
      unfold minRowFold at ihb
      apply ihb
      · rw [(minRowScan_sameButMin (r1 + 1) NUM_BOARD_COLS b (-1) (r0 + 1)
          (col - 1)).2.1]
        exact hocc
      · rw [(minRowScan_shape (r1 + 1) NUM_BOARD_COLS b (-1)).1]
        exact hr
      · rw [(minRowScan_shape (r1 + 1) NUM_BOARD_COLS b (-1)).2 (r0 + 1)]
        exact hc

theorem minRowFold_adjacent :
    ∀ (rows : List Nat) (b : SquareGrid) (r0 col : Nat),
      rows.count r0 = 1 → 1 ≤ col → col ≤ NUM_BOARD_COLS →
      (getSq b (r0 + 1) (col - 1)).letter = '.' →
      ((getSq b r0 col).letter ≠ '.' ∨
        (getSq b (r0 + 2) col).letter ≠ '.' ∨
        (getSq b (r0 + 1) (col + 1)).letter ≠ '.' ∨
        (getSq b (r0 + 1) col).letter ≠ '.') →
      r0 + 1 < b.length → col < (b.getD (r0 + 1) []).length →
      (getSq (minRowFold rows b) (r0 + 1) col).min_across_word_length = 1 := by
  intro rows
  induction rows with
  | nil => intro b r0 col h _ _ _ _ _ _; simp at h
  | cons r1 rest ih =>
    intro b r0 col hcount h1 h2 hleft hadj hr hc
    rw [List.count_cons] at hcount
    simp only [beq_iff_eq] at hcount
    unfold minRowFold
    rw [List.foldl_cons]
    by_cases heq : r1 = r0
    · subst heq
      have hrest : rest.count r1 = 0 := by
        rw [if_pos rfl] at hcount
        omega
      have hne : ∀ x ∈ rest, x + 1 ≠ r1 + 1 := by
        intro x hx hxeq
        rw [List.count_eq_zero] at hrest
        have : x = r1 := by omega
        exact hrest (this ▸ hx)
      have h3 := minRowFold_other (r1 + 1) col rest
        (minRowScan (r1 + 1) NUM_BOARD_COLS b (-1)) hne
      unfold minRowFold at h3
      rw [h3]
      have := minRowScan_adjacent (r1 + 1) NUM_BOARD_COLS b (-1) col h1 h2 hleft
        (by simpa using hadj) hr hc
      exact this
    · have hcount' : rest.count r0 = 1 := by
        rw [if_neg heq] at hcount
        omega
      have hs := fun r' c' => (minRowScan_sameButMin (r1 + 1) NUM_BOARD_COLS b
        (-1) r' c').2.1
      have ihb := ih (minRowScan (r1 + 1) NUM_BOARD_COLS b (-1)) r0 col hcount'
        h1 h2
      unfold minRowFold at ihb
      apply ihb
      · rw [hs (r0 + 1) (col - 1)]
        exact hleft
      · rw [hs r0 col, hs (r0 + 2) col, hs (r0 + 1) (col + 1), hs (r0 + 1) col]
        exact hadj
      · rw [(minRowScan_shape (r1 + 1) NUM_BOARD_COLS b (-1)).1]
        exact hr
      · rw [(minRowScan_shape (r1 + 1) NUM_BOARD_COLS b (-1)).2 (r0 + 1)]
        exact hc

/-- **C2 (amended): in the right-to-left per-row scan of
`update_min_across_word_length`, every cell whose immediate LEFT neighbour is
occupied — i.e. every cell immediately right of an occupied cell — receives
minimum-connecting-length -1 and so can never start a rightward extension.**
(The scan checks `board[row][col-1].letter != '.'` first, before any other
case.) -/
theorem update_min_right_of_occupied (board : SquareGrid) (row col : Nat)
    (h1 : 1 ≤ row) (h2 : row ≤ NUM_BOARD_ROWS)
    (h3 : 1 ≤ col) (h4 : col ≤ NUM_BOARD_COLS)
    (hr : row < board.length) (hc : col < (board.getD row []).length)
    (hocc : (getSq board row (col - 1)).letter ≠ '.') :
    (getSq (update_min_across_word_length board) row
        col).min_across_word_length = -1 := by
  rw [update_min_eq_minRowFold]
  have hrow : row - 1 + 1 = row := by omega
  have hcount : (List.range NUM_BOARD_ROWS).count (row - 1) = 1 :=
    List.count_eq_one_of_mem (List.nodup_range _)
      (List.mem_range.mpr (by unfold NUM_BOARD_ROWS at h2 ⊢; omega))
  have key := minRowFold_leftOcc (List.range NUM_BOARD_ROWS) board (row - 1)
    col hcount h3 h4
  rw [hrow] at key
  exact key hocc hr hc

/-- Board for the C2 counterexample: a single tile `A` at `(8,8)` on an
otherwise empty bordered board; every interior minimum-length field starts
at 99, so any other value seen after the pass was computed by it. -/
def c2Board : SquareGrid :=
  (List.range 17).map fun r =>
    (List.range 17).map fun c =>
      if r = 0 ∨ r = 16 ∨ c = 0 ∨ c = 16 then
        { type := SquareType.outside, down_cross_check := List.replicate 26 false,
          letter := '.', row := r, col := c, min_across_word_length := -1 }
      else
        { type := SquareType.regular, down_cross_check := List.replicate 26 true,
          letter := if r = 8 ∧ c = 8 then 'A' else '.',
          row := r, col := c, min_across_word_length := 99 }

/-- **C2 (counterexample).**  The cell `(8,7)` is immediately left of the
occupied cell `(8,8)`, yet `update_min_across_word_length` assigns it
minimum-connecting-length 1 (it is a valid anchor), not -1: the -1 rule
applies to cells immediately RIGHT of an occupied cell, not left. -/
theorem c2_counterexample :
    (getSq c2Board 8 8).letter ≠ '.' ∧
    (getSq c2Board 8 7).letter = '.' ∧
    (getSq (update_min_across_word_length c2Board) 8
        7).min_across_word_length = 1 ∧
    (getSq (update_min_across_word_length c2Board) 8
        7).min_across_word_length ≠ -1 := by
  have hcount : (List.range NUM_BOARD_ROWS).count 7 = 1 :=
    List.count_eq_one_of_mem (List.nodup_range _)
      (List.mem_range.mpr (by decide))
  have key := minRowFold_adjacent (List.range NUM_BOARD_ROWS) c2Board 7 7
    hcount (by decide) (by decide) (by decide)
    (Or.inr (Or.inr (Or.inl (by decide)))) (by decide) (by decide)
  refine ⟨by decide, by decide, ?_, ?_⟩
  · rw [update_min_eq_minRowFold]
    exact key
  · rw [update_min_eq_minRowFold, key]
    decide

/-! ## The best-so-far invariant of the search -/

/-- The best pair can only be replaced by a strictly better scored, nonempty
move whose score is the score of its own placement. -/
def bestInv (tiles : List Nat) (board : SquareGrid)
    (best result : List Square × Nat) : Prop :=
  result = best ∨ (result.2 > best.2 ∧ result.1 ≠ [] ∧
    result.2 = calc_across_pts tiles board result.1)

/-- Board-free weakening of `bestInv`. -/
def bestInvW (best result : List Square × Nat) : Prop :=
  result = best ∨ (result.2 > best.2 ∧ result.1 ≠ [])

theorem bestInv_trans {tiles : List Nat} {board : SquareGrid}
    {a b c : List Square × Nat} (h1 : bestInv tiles board a b)
    (h2 : bestInv tiles board b c) : bestInv tiles board a c := by
  rcases h1 with rfl | ⟨hgt1, hne1, hcalc1⟩
  · exact h2
  · rcases h2 with rfl | ⟨hgt2, hne2, hcalc2⟩
    · exact Or.inr ⟨hgt1, hne1, hcalc1⟩
    · exact Or.inr ⟨Nat.lt_trans hgt1 hgt2, hne2, hcalc2⟩

theorem bestInv_weaken {tiles : List Nat} {board : SquareGrid}
    {a b : List Square × Nat} (h : bestInv tiles board a b) : bestInvW a b := by
  rcases h with rfl | ⟨hgt, hne, _⟩
  · exact Or.inl rfl
  · exact Or.inr ⟨hgt, hne⟩

theorem bestInvW_trans {a b c : List Square × Nat} (h1 : bestInvW a b)
    (h2 : bestInvW b c) : bestInvW a c := by
  rcases h1 with rfl | ⟨hgt1, hne1⟩
  · exact h2
  · rcases h2 with rfl | ⟨hgt2, hne2⟩
    · exact Or.inr ⟨hgt1, hne1⟩
    · exact Or.inr ⟨Nat.lt_trans hgt1 hgt2, hne2⟩

/-- The complete-move check of `extend_right` respects the invariant: it
replaces the best pair only when the freshly scored placement strictly
exceeds the current best score. -/
theorem record_step_bestInv (tiles : List Nat) (board : SquareGrid)
    (node : TrieNode) (minw : Int) (mv : List Square)
    (best : List Square × Nat) :
    bestInv tiles board best
      (if node.is_terminal_node = true ∧ mv.length ≥ uintCast minw then
        (if calc_across_pts tiles board mv > best.2 then
          (mv, calc_across_pts tiles board mv)
        else best)
      else best) := by
  by_cases h1 : node.is_terminal_node = true ∧ mv.length ≥ uintCast minw
  · rw [if_pos h1]
    by_cases h2 : calc_across_pts tiles board mv > best.2
    · rw [if_pos h2]
      right
      refine ⟨h2, ?_, rfl⟩
      intro hnil
      subst hnil
      simp [calc_across_pts] at h2
    · rw [if_neg h2]
      exact Or.inl rfl
  · rw [if_neg h1]
    exact Or.inl rfl

/-- Each child iteration of `extend_right` respects the invariant whenever
the recursive continuation does. -/
theorem erChildStep_best (tiles : List Nat) (board : SquareGrid)
    (recur : List Int → TrieNode → Square → Int → List Square →
      List Square × Nat → List Square × Nat)
    (sqr : Square) (minw : Int)
    (st : List Int × List Square × (List Square × Nat)) (ch : TrieNode)
    (hrec : ∀ rk nd csq mw mv2 bst,
      bestInv tiles board bst (recur rk nd csq mw mv2 bst)) :
    bestInv tiles board st.2.2
      (erChildStep tiles board recur sqr minw st ch).2.2 := by
  unfold erChildStep
  by_cases hg1 : st.1.getD (ch.letter.toNat - 65) 0 > 0 ∧
      sqr.down_cross_check.getD (ch.letter.toNat - 65) false = true
  · rw [if_pos hg1]
    exact hrec _ _ _ _ _ _
  · rw [if_neg hg1]
    by_cases hg2 : st.1.getD 26 0 > 0 ∧
        sqr.down_cross_check.getD (ch.letter.toNat - 65) false = true
    · rw [if_pos hg2]
      exact hrec _ _ _ _ _ _
    · rw [if_neg hg2]
      exact Or.inl rfl

/-- **The search's best pair obeys the invariant**: the result of any
`extend_right` call is either the incoming best pair unchanged, or a
nonempty placement with a strictly larger score equal to that placement's
own score. -/
theorem extend_right_bestInv (tiles : List Nat) (board : SquareGrid) :
    ∀ (fuel : Nat) (rack : List Int) (node : TrieNode) (curr : Square)
      (minw : Int) (mv : List Square) (best : List Square × Nat),
      bestInv tiles board best
        (extend_right tiles board fuel rack node curr minw mv best) := by
  intro fuel
  induction fuel with
  | zero =>
    intro rack node curr minw mv best
    exact Or.inl rfl
  | succ f ih =>
    intro rack node curr minw mv best
    by_cases hout : (getSq board curr.row curr.col).type = SquareType.outside
    · simp only [extend_right, hout, if_true]
      exact Or.inl rfl
    · by_cases hemp : (getSq board curr.row curr.col).letter = '.'
      · simp only [extend_right, hout, if_false, hemp, if_true]
        have hfold : ∀ (cs : List TrieNode)
            (st : List Int × List Square × (List Square × Nat)),
            bestInv tiles board best st.2.2 →
            bestInv tiles board best
              ((cs.foldl
                (erChildStep tiles board
                  (fun rk nd csq mw mv2 bst =>
                    extend_right tiles board f rk nd csq mw mv2 bst)
                  (getSq board curr.row curr.col) minw)
                st).2.2) := by
          intro cs
          induction cs with
          | nil => intro st h; exact h
          | cons ch rest ihc =>
            intro st h
            rw [List.foldl_cons]
            apply ihc
            refine bestInv_trans h (erChildStep_best tiles board _ _ _ _ _ ?_)
            intro rk nd csq mw mv2 bst
            exact ih rk nd csq mw mv2 bst
        exact hfold node.children (rack, mv, _)
          (record_step_bestInv tiles board node minw mv best)
      · simp only [extend_right, hout, if_false, hemp]
        by_cases hci : node.letter_indexes.getD
            ((cToUpper (getSq board curr.row curr.col).letter).toNat - 65)
            (-1) = -1
        · rw [if_neg (fun hcond => hcond hci)]
          exact Or.inl rfl
        · rw [if_pos hci]
          exact ih _ _ _ _ _ _

theorem foldl_bestInv {α : Type} (tiles : List Nat) (board : SquareGrid)
    (g : (List Square × Nat) → α → (List Square × Nat))
    (hg : ∀ best x, bestInv tiles board best (g best x)) :
    ∀ (l : List α) (best : List Square × Nat),
      bestInv tiles board best (l.foldl g best) := by
  intro l
  induction l with
  | nil => intro best; exact Or.inl rfl
  | cons x xs ihx =>
    intro best
    rw [List.foldl_cons]
    exact bestInv_trans (hg best x) (ihx (g best x))

theorem foldl_pair_bestInvW {σ α : Type}
    (g : (σ × (List Square × Nat)) → α → σ × (List Square × Nat))
    (hg : ∀ st x, bestInvW st.2 (g st x).2) :
    ∀ (l : List α) (st : σ × (List Square × Nat)),
      bestInvW st.2 (l.foldl g st).2 := by
  intro l
  induction l with
  | nil => intro st; exact Or.inl rfl
  | cons x xs ihx =>
    intro st
    rw [List.foldl_cons]
    exact bestInvW_trans (hg st x) (ihx (g st x))

theorem invert_move_invert_move (mv : List Square) :
    invert_move (invert_move mv) = mv := by
  induction mv with
  | nil => rfl
  | cons s rest ih =>
    simp only [invert_move, List.map_cons] at ih ⊢
    refine congrArg₂ List.cons ?_ ih
    cases s
    rfl

/-- The across search result is empty or a nonempty move of positive score
(scored against the board it was searched on). -/
theorem find_best_across_move_spec (tiles : List Nat) (board : SquareGrid)
    (rack : List Int) (root : TrieNode) :
    find_best_across_move tiles board rack root = [] ∨
      (find_best_across_move tiles board rack root ≠ [] ∧
        calc_across_pts tiles board
          (find_best_across_move tiles board rack root) > 0) := by
  have hinv : bestInv tiles board (([] : List Square), (0 : Nat))
      ((List.range NUM_BOARD_ROWS).foldl
        (fun best r0 =>
          (List.range NUM_BOARD_COLS).foldl
            (fun best c0 =>
              if (getSq board (r0 + 1) (c0 + 1)).min_across_word_length ≤
                    (NUM_RACK_TILES : Int) ∧
                  (getSq board (r0 + 1) (c0 + 1)).min_across_word_length ≠
                    -1 then
                extend_right tiles board ER_FUEL rack root
                  (getSq board (r0 + 1) (c0 + 1))
                  (getSq board (r0 + 1) (c0 + 1)).min_across_word_length []
                  best
              else best)
            best)
        (([] : List Square), (0 : Nat))) := by
    apply foldl_bestInv
    intro best r0
    apply foldl_bestInv
    intro best2 c0
    by_cases h : (getSq board (r0 + 1) (c0 + 1)).min_across_word_length ≤
        (NUM_RACK_TILES : Int) ∧
        (getSq board (r0 + 1) (c0 + 1)).min_across_word_length ≠ -1
    · rw [if_pos h]
      exact extend_right_bestInv tiles board ER_FUEL rack root _ _ [] best2
    · rw [if_neg h]
      exact Or.inl rfl
  unfold find_best_across_move
  rcases hinv with heq | ⟨hgt, hne, hcalc⟩
  · rw [heq]
    exact Or.inl rfl
  · right
    refine ⟨hne, ?_⟩
    rw [← hcalc]
    exact hgt

/-- The down search result is empty or a nonempty move whose recomputed
down score is positive. -/
theorem find_best_down_move_spec (tiles : List Nat) (words : List (List Char))
    (root : TrieNode) (board : SquareGrid) (rack : List Int) :
    find_best_down_move tiles words root board rack = [] ∨
      (find_best_down_move tiles words root board rack ≠ [] ∧
        calc_down_pts tiles words board
          (find_best_down_move tiles words root board rack) > 0) := by
  unfold find_best_down_move calc_down_pts
  rcases find_best_across_move_spec tiles (invert_board words board) rack root
    with h | ⟨hne, hpos⟩
  · left
    rw [h]
    rfl
  · right
    constructor
    · intro hnil
      unfold invert_move at hnil
      exact hne (List.map_eq_nil_iff.mp hnil)
    · rw [invert_move_invert_move]
      exact hpos

/-- **C3 (amended): on a board with at least one occupied interior cell,
`find_best_move` compares the recomputed scores of the best across and best
down moves and returns the across pair only when its score is STRICTLY
higher; when the scores are equal it returns the down (vertical) pair.** -/
theorem find_best_move_occupied_spec (tiles : List Nat)
    (words : List (List Char)) (root : TrieNode) (board : SquareGrid)
    (rack : List Int) (best : List Square × Nat)
    (h : ∃ rc ∈ interiorCells, (getSq board rc.1 rc.2).letter ≠ '.') :
    find_best_move tiles words root board rack best =
      if calc_across_pts tiles board
            (find_best_across_move tiles board rack root) >
          calc_down_pts tiles words board
            (find_best_down_move tiles words root board rack) then
        (find_best_across_move tiles board rack root,
          calc_across_pts tiles board
            (find_best_across_move tiles board rack root))
      else
        (find_best_down_move tiles words root board rack,
          calc_down_pts tiles words board
            (find_best_down_move tiles words root board rack)) := by
  have hfind : (interiorCells.find?
      (fun rc => (getSq board rc.1 rc.2).letter ≠ '.')).isSome := by
    rw [List.find?_isSome]
    obtain ⟨rc, hmem, hocc⟩ := h
    exact ⟨rc, hmem, by simpa using hocc⟩
  cases hval : interiorCells.find?
      (fun rc => (getSq board rc.1 rc.2).letter ≠ '.') with
  | none => rw [hval] at hfind; simp at hfind
  | some rc0 =>
    unfold find_best_move
    rw [hval]

/-- **C7: if no legal move exists, the search yields the empty placement and
score 0.**  Conjunct one: the scorer gives an empty placement 0 points.
Conjunct two: starting from the caller's `([], 0)`, `find_best_move` either
returns `([], 0)` unchanged — the no-legal-move outcome — or returns a
nonempty placement with a strictly positive score; so an empty answer always
carries score 0. -/
theorem find_best_move_no_move_spec :
    (∀ (tiles : List Nat) (board : SquareGrid),
      calc_across_pts tiles board [] = 0) ∧
    (∀ (tiles : List Nat) (words : List (List Char)) (root : TrieNode)
      (board : SquareGrid) (rack : List Int),
      find_best_move tiles words root board rack ([], 0) = ([], 0) ∨
        ((find_best_move tiles words root board rack ([], 0)).2 > 0 ∧
          (find_best_move tiles words root board rack ([], 0)).1 ≠ [])) := by
  constructor
  · intro tiles board
    rfl
  · intro tiles words root board rack
    cases hval : interiorCells.find?
        (fun rc => (getSq board rc.1 rc.2).letter ≠ '.') with
    | some rc0 =>
      have heq : find_best_move tiles words root board rack ([], 0) =
          if calc_across_pts tiles board
                (find_best_across_move tiles board rack root) >
              calc_down_pts tiles words board
                (find_best_down_move tiles words root board rack) then
            (find_best_across_move tiles board rack root,
              calc_across_pts tiles board
                (find_best_across_move tiles board rack root))
          else
            (find_best_down_move tiles words root board rack,
              calc_down_pts tiles words board
                (find_best_down_move tiles words root board rack)) := by
        unfold find_best_move
        rw [hval]
      rw [heq]
      rcases find_best_across_move_spec tiles board rack root with ha | ⟨hane, hapos⟩
      · rcases find_best_down_move_spec tiles words root board rack with
          hd | ⟨hdne, hdpos⟩
        · left
          rw [ha, hd]
          simp [calc_across_pts, calc_down_pts, invert_move]
        · right
          rw [ha]
          have hzero : calc_across_pts tiles board ([] : List Square) = 0 := rfl
          rw [hzero, if_neg (Nat.not_lt_zero _)]
          exact ⟨by simpa using hdpos, by simpa using hdne⟩
      · by_cases hcmp : calc_across_pts tiles board
            (find_best_across_move tiles board rack root) >
            calc_down_pts tiles words board
              (find_best_down_move tiles words root board rack)
        · right
          rw [if_pos hcmp]
          exact ⟨by simpa using hapos, by simpa using hane⟩
        · right
          rw [if_neg hcmp]
          have hdpos : calc_down_pts tiles words board
              (find_best_down_move tiles words root board rack) > 0 :=
            Nat.lt_of_lt_of_le hapos (Nat.le_of_not_lt hcmp)
          refine ⟨by simpa using hdpos, ?_⟩
          rcases find_best_down_move_spec tiles words root board rack with
            hd | ⟨hdne, _⟩
          · rw [hd] at hdpos
            have hzero2 : calc_down_pts tiles words board
                ([] : List Square) = 0 := by
              simp [calc_down_pts, invert_move, calc_across_pts]
            rw [hzero2] at hdpos
            exact absurd hdpos (lt_irrefl 0)
          · simpa using hdne
    | none =>
      have heq : find_best_move tiles words root board rack ([], 0) =
          (((List.range mid_col).map (· + 1)).foldl
            (opening_step tiles root rack) (board, ([], 0))).2 := by
        unfold find_best_move
        rw [hval]
      rw [heq]
      have hinv : bestInvW (board, (([] : List Square), (0 : Nat))).2
          (((List.range mid_col).map (· + 1)).foldl
            (opening_step tiles root rack) (board, ([], 0))).2 := by
        apply foldl_pair_bestInvW
        intro st col
        unfold opening_step
        by_cases hc : (getSq (opening_assign st.1 col) mid_row
              col).min_across_word_length ≤ (NUM_RACK_TILES : Int) ∧
            (getSq (opening_assign st.1 col) mid_row
              col).min_across_word_length ≠ -1
        · rw [if_pos hc]
          exact bestInv_weaken (extend_right_bestInv _ _ ER_FUEL rack root _ _
            [] st.2)
        · rw [if_neg hc]
          exact Or.inl rfl
      rcases hinv with hl | hr
      · left
        exact hl
      · right
        exact ⟨hr.1, hr.2⟩

/-! ## Concrete boards for the remaining claims -/

/-- Bordered 17×17 board builder for concrete instances: a sentinel ring of
`outside` squares around interior squares whose bonus type, letter,
cross-check set and minimum length are given by the four functions (the
shape `read_board_data` produces for the standard board file). -/
def mkAnnotBoard (bonus : Nat → Nat → SquareType) (letters : Nat → Nat → Char)
    (cc : Nat → Nat → List Bool) (minv : Nat → Nat → Int) : SquareGrid :=
  (List.range 17).map fun r =>
    (List.range 17).map fun c =>
      if r = 0 ∨ r = 16 ∨ c = 0 ∨ c = 16 then
        { type := SquareType.outside, down_cross_check := List.replicate 26 false,
          letter := '.', row := r, col := c, min_across_word_length := -1 }
      else
        { type := bonus r c, down_cross_check := cc r c,
          letter := letters r c, row := r, col := c,
          min_across_word_length := minv r c }

/-- A tile table in which every letter is worth one point. -/
def tilesOne : List Nat := List.replicate 27 1

/-- A rack holding one `B` and one `C`. -/
def rackBC : List Int := (List.range 27).map fun i => if i = 1 ∨ i = 2 then 1 else 0

/-- A rack holding one `B` only. -/
def rackOnlyB : List Int := (List.range 27).map fun i => if i = 1 then 1 else 0

/-- The C4 lexicon, in the model's map-iteration order: `CAD` before `BAD`
(the C++ iterates an `unordered_map`, whose order is unspecified). -/
def wordsC4 : List (List Char) := [['C', 'A', 'D'], ['B', 'A', 'D']]

def trieC4 : TrieNode := create_word_trie wordsC4

/-- C4 board: `A` at `(8,8)` and `D` at `(8,9)`, annotated exactly as the
two passes would leave it for this lexicon (the four cells vertically
adjacent to the tiles allow no letter, since the lexicon has no two-letter
words). -/
def bC4 : SquareGrid :=
  mkAnnotBoard (fun _ _ => SquareType.regular)
    (fun r c => if r = 8 ∧ c = 8 then 'A' else if r = 8 ∧ c = 9 then 'D' else '.')
    (fun r c =>
      if (r = 7 ∨ r = 9) ∧ (c = 8 ∨ c = 9) then List.replicate 26 false
      else List.replicate 26 true)
    (fun r c =>
      if r = 8 then (if c = 7 ∨ c = 8 then 1 else if c ≤ 6 then 8 - (c : Int) else -1)
      else if r = 7 ∨ r = 9 then
        (if c = 8 ∨ c = 9 then 1 else if c ≤ 7 then 9 - (c : Int) else -1)
      else -1)

def cSquareC4 : Square := { uninitSquare with row := 8, col := 7, letter := 'C' }

def bSquareC4 : Square := { uninitSquare with row := 8, col := 7, letter := 'B' }

/-- **C4 (counterexample).**  The trie built from the lexicon iterated in
the order `CAD, BAD` stores its root children as `[C, B]` — not in
ascending alphabetical order.  With rack `{B, C}` the across search keeps
the placement of `C` at `(8,7)` even though the placement of `B` there is
equally legal (it is found when only `B` is in the rack) and scores the
same 3 points; under the claimed ascending alphabetical order with ties
keeping the first placement found, the `B` placement would have been kept. -/
theorem c4_counterexample :
    (create_word_trie wordsC4).children.map TrieNode.letter = ['C', 'B'] ∧
    find_best_across_move tilesOne bC4 rackBC trieC4 = [cSquareC4] ∧
    find_best_across_move tilesOne bC4 rackOnlyB trieC4 = [bSquareC4] ∧
    calc_across_pts tilesOne bC4 [cSquareC4] = 3 ∧
    calc_across_pts tilesOne bC4 [bSquareC4] = 3 ∧
    cSquareC4 ≠ bSquareC4 := by
  refine ⟨by decide, by decide, by decide, by decide, by decide, by decide⟩

/-- **C4 (amended): the search keeps one global best placement and replaces
it only on strict improvement.**  The score returned by `extend_right`
never decreases, and when it equals the incoming best score the incoming
best pair is returned unchanged — score ties keep the first placement
found.  (The candidate letters themselves are tried in the trie node's
stored child order — insertion order — and for each letter at most one of
the real-letter and blank branches runs; see the counterexample.) -/
theorem extend_right_strict_improvement (tiles : List Nat) (board : SquareGrid)
    (fuel : Nat) (rack : List Int) (node : TrieNode) (curr : Square)
    (minw : Int) (mv : List Square) (best : List Square × Nat) :
    (extend_right tiles board fuel rack node curr minw mv best).2 ≥ best.2 ∧
      ((extend_right tiles board fuel rack node curr minw mv best).2 = best.2 →
        extend_right tiles board fuel rack node curr minw mv best = best) := by
  rcases extend_right_bestInv tiles board fuel rack node curr minw mv best with
    heq | ⟨hgt, _, _⟩
  · rw [heq]
    exact ⟨Nat.le_refl _, fun _ => rfl⟩
  · refine ⟨Nat.le_of_lt hgt, fun h => ?_⟩
    exact absurd (Nat.lt_of_lt_of_eq hgt h) (lt_irrefl _)

/-! ## C3: concrete tie between the across and down searches -/

theorem foldl_range_stage {α : Type} (f : α → Nat → α) (g : Nat → α) :
    ∀ (n : Nat), (∀ k < n, f (g k) k = g (k + 1)) →
      (List.range n).foldl f (g 0) = g n := by
  intro n
  induction n with
  | zero => intro _; rfl
  | succ m ih =>
    intro h
    rw [List.range_succ, List.foldl_append,
      ih (fun k hk => h k (Nat.lt_succ_of_lt hk))]
    simpa using h m (Nat.lt_succ_self m)

theorem foldl_id {α β : Type} (f : α → β → α) (b : α) :
    ∀ (l : List β), (∀ x ∈ l, f b x = b) → l.foldl f b = b := by
  intro l
  induction l with
  | nil => intro _; rfl
  | cons x xs ih =>
    intro h
    rw [List.foldl_cons, h x (List.mem_cons_self _ _)]
    exact ih fun y hy => h y (List.mem_cons_of_mem _ hy)

/-- The C3 lexicon: `CAB` plus the two-letter entries `CA` and `AB` (short
words enter the membership lexicon but are filtered out of the trie). -/
def wordsC3 : List (List Char) := [['C', 'A', 'B'], ['C', 'A'], ['A', 'B']]

def trieC3 : TrieNode := create_word_trie wordsC3

/-- A cross-check set allowing exactly letter number `i`. -/
def ccOnly (i : Nat) : List Bool := (List.range 26).map fun j => decide (j = i)

def lettersC3 (r c : Nat) : Char := if r = 8 ∧ c = 8 then 'A' else '.'

/-- Cross-check annotation for `bC3`, symmetric under transposition. -/
def ccC3 (r c : Nat) : List Bool :=
  if (r = 7 ∧ c = 8) ∨ (r = 8 ∧ c = 7) then ccOnly 2
  else if (r = 9 ∧ c = 8) ∨ (r = 8 ∧ c = 9) then ccOnly 1
  else List.replicate 26 true

/-- The minimum-length values `update_min_across_word_length` computes for a
board holding the single tile `A` at `(8,8)`. -/
def mC3 (r c : Nat) : Int :=
  if r = 7 ∨ r = 9 then (if 1 ≤ c ∧ c ≤ 8 then 9 - (c : Int) else -1)
  else if r = 8 then
    (if c = 7 ∨ c = 8 then 1 else if 1 ≤ c ∧ c ≤ 6 then 8 - (c : Int) else -1)
  else -1

/-- The C3 board: a single `A` at `(8,8)`, all-regular bonuses, annotated
with `mC3` and the transpose-symmetric cross-checks `ccC3`. -/
def bC3 : SquareGrid :=
  mkAnnotBoard (fun _ _ => SquareType.regular) lettersC3 ccC3 mC3

/-- Transposition progress: after the first `k` rows of `invert_board`'s
copy loop, rows `1..k` hold the transposed minimum lengths. -/
def c3TransStage (k : Nat) : SquareGrid :=
  mkAnnotBoard (fun _ _ => SquareType.regular) lettersC3 ccC3
    (fun r c => if r ≤ k then mC3 c r else mC3 r c)

/-- Minimum-length pass progress on the transposed board: after `k` rows,
rows `1..k` hold `mC3` again. -/
def c3MinStage (k : Nat) : SquareGrid :=
  mkAnnotBoard (fun _ _ => SquareType.regular) lettersC3 ccC3
    (fun r c => if r ≤ k then mC3 r c else mC3 c r)

set_option maxRecDepth 1000000 in
theorem c3_trans_stage_step : ∀ k < NUM_BOARD_ROWS,
    (List.range NUM_BOARD_COLS).foldl
      (fun ib c0 => setSq ib (k + 1) (c0 + 1)
        { getSq bC3 (c0 + 1) (k + 1) with row := k + 1, col := c0 + 1 })
      (c3TransStage k) = c3TransStage (k + 1) := by decide

set_option maxRecDepth 1000000 in
theorem c3_cc_identity : ∀ rc ∈ interiorCells,
    updateOneCrossCheck wordsC3 (c3TransStage 15) rc.1 rc.2 =
      c3TransStage 15 := by decide

set_option maxRecDepth 1000000 in
theorem c3_min_stage_step : ∀ k < NUM_BOARD_ROWS,
    minRowScan (k + 1) NUM_BOARD_COLS (c3MinStage k) (-1) =
      c3MinStage (k + 1) := by decide

/-- On the fully symmetric `bC3`, inverting the board reproduces it. -/
theorem c3_ib_eq : invert_board wordsC3 bC3 = bC3 := by
  unfold invert_board
  have h1 : (List.range NUM_BOARD_ROWS).foldl
      (fun ib r0 =>
        (List.range NUM_BOARD_COLS).foldl
          (fun ib c0 => setSq ib (r0 + 1) (c0 + 1)
            { getSq bC3 (c0 + 1) (r0 + 1) with row := r0 + 1, col := c0 + 1 })
          ib)
      bC3 = c3TransStage 15 := by
    rw [show bC3 = c3TransStage 0 by decide]
    exact foldl_range_stage _ c3TransStage NUM_BOARD_ROWS c3_trans_stage_step
  rw [h1]
  have h2 : update_down_cross_checks wordsC3 (c3TransStage 15) =
      c3TransStage 15 := by
    rw [update_cc_eq_ccCellFold]
    exact foldl_id _ _ interiorCells c3_cc_identity
  rw [h2]
  have h3 : update_min_across_word_length (c3TransStage 15) = bC3 := by
    rw [update_min_eq_minRowFold]
    unfold minRowFold
    rw [show c3TransStage 15 = c3MinStage 0 by decide]
    rw [foldl_range_stage _ c3MinStage NUM_BOARD_ROWS c3_min_stage_step]
    decide
  exact h3

/-- The across move the search finds on `bC3`: `C` at `(8,7)` and `B` at
`(8,9)`, completing `C-A-B` horizontally. -/
def acrossMoveC3 : List Square :=
  [{ uninitSquare with row := 8, col := 7, letter := 'C' },
   { uninitSquare with row := 8, col := 9, letter := 'B' }]

/-- The down move: the same word played vertically through the `A`. -/
def downMoveC3 : List Square :=
  [{ uninitSquare with row := 7, col := 8, letter := 'C' },
   { uninitSquare with row := 9, col := 8, letter := 'B' }]

/-- **C3 (counterexample).**  On `bC3` (occupied at `(8,8)`) with rack
`{B, C}`, the best across and best down moves both score 3 — a tie — and
`find_best_move` returns the DOWN move, not the horizontal result the
claim promises. -/
theorem c3_counterexample :
    (∃ rc ∈ interiorCells, (getSq bC3 rc.1 rc.2).letter ≠ '.') ∧
    find_best_across_move tilesOne bC3 rackBC trieC3 = acrossMoveC3 ∧
    calc_across_pts tilesOne bC3 acrossMoveC3 = 3 ∧
    find_best_move tilesOne wordsC3 trieC3 bC3 rackBC ([], 0) =
      (downMoveC3, 3) ∧
    downMoveC3 ≠ acrossMoveC3 := by
  refine ⟨⟨(8, 8), by decide, by decide⟩, by decide, by decide, ?_, by decide⟩
  rw [find_best_move_occupied_spec tilesOne wordsC3 trieC3 bC3 rackBC ([], 0)
    ⟨(8, 8), by decide, by decide⟩]
  unfold find_best_down_move calc_down_pts
  rw [c3_ib_eq]
  decide

/-! ## C5: word-bonus compounding in the scorer -/

theorem applyDoubleWord_eq (p : Nat) : ∀ n, applyDoubleWord p n = p * 2 ^ n := by
  intro n
  induction n generalizing p with
  | zero => simp [applyDoubleWord]
  | succ m ihn =>
    rw [applyDoubleWord, ihn]
    ring

theorem applyTripleWord_eq (p : Nat) : ∀ n, applyTripleWord p n = p * 3 ^ n := by
  intro n
  induction n generalizing p with
  | zero => simp [applyTripleWord]
  | succ m ihn =>
    rw [applyTripleWord, ihn]
    ring

/-- Inside a move, the squares sitting on double-word cells of the board. -/
def isDoubleWordSq (board : SquareGrid) (s : Square) : Bool :=
  (getSq board s.row s.col).type = SquareType.double_word

/-- Inside a move, the squares sitting on triple-word cells of the board. -/
def isTripleWordSq (board : SquareGrid) (s : Square) : Bool :=
  (getSq board s.row s.col).type = SquareType.triple_word

theorem acrossSqrStep_counts (tiles : List Nat) (board : SquareGrid) :
    ∀ (move : List Square) (acc : Nat × Nat × Nat × Nat),
      (move.foldl (acrossSqrStep tiles board) acc).2.2.1 =
          acc.2.2.1 + move.countP (isDoubleWordSq board) ∧
        (move.foldl (acrossSqrStep tiles board) acc).2.2.2 =
          acc.2.2.2 + move.countP (isTripleWordSq board) := by
  intro move
  induction move with
  | nil => intro acc; simp
  | cons s rest ih =>
    intro acc
    rw [List.foldl_cons, List.countP_cons, List.countP_cons]
    have hstep := ih (acrossSqrStep tiles board acc s)
    rw [hstep.1, hstep.2]
    by_cases hdw : (getSq board s.row s.col).type = SquareType.double_word
    · have hntw : ¬(getSq board s.row s.col).type = SquareType.triple_word := by
        rw [hdw]; intro hc; cases hc
      constructor
      · simp only [acrossSqrStep, hdw, if_true, isDoubleWordSq, hdw]
        simp
        omega
      · simp only [acrossSqrStep, hdw, if_true, isTripleWordSq, hntw]
        simp
    · by_cases htw : (getSq board s.row s.col).type = SquareType.triple_word
      · constructor
        · simp only [acrossSqrStep, hdw, if_false, htw, if_true, isDoubleWordSq]
          simp [hdw]
        · simp only [acrossSqrStep, hdw, if_false, htw, if_true, isTripleWordSq]
          simp [htw]
          omega
      · constructor
        · simp only [acrossSqrStep, hdw, if_false, htw, if_false, isDoubleWordSq]
          simp [hdw]
        · simp only [acrossSqrStep, hdw, if_false, htw, if_false, isTripleWordSq]
          simp [htw]

/-- The primary-word subtotal of a move before the word multipliers: the
accumulated (letter-bonused) tile points of the placed squares plus the
points of the pre-existing letters collected left of, between and right of
the placement. -/
def baseRowPts (tiles : List Nat) (board : SquareGrid) (move : List Square) :
    Nat :=
  match move with
  | [] => 0
  | first :: _ =>
    (move.foldl (acrossSqrStep tiles board) (0, 0, 0, 0)).1 +
      leftScanPts tiles board first.row (first.col - 1) +
      midScanPts tiles board first.row first.col
        (move.getLastD outsideSquare).col +
      rightScanPts tiles board first.row
        ((move.getLastD outsideSquare).col + 1) SCAN_FUEL

/-- The accumulated cross-word subtotal of a move. -/
def crossPtsTotal (tiles : List Nat) (board : SquareGrid) (move : List Square) :
    Nat :=
  (move.foldl (acrossSqrStep tiles board) (0, 0, 0, 0)).2.1

/-- **C5: the word multipliers compound.**  For a nonempty move containing
`d` newly placed squares on double-word cells and `t` on triple-word cells,
`calc_across_pts` multiplies the primary-word subtotal by `2^d * 3^t`
(doubling once per double-word cell, then tripling once per triple-word
cell), then adds the cross-word subtotal and the 50-point bingo bonus for
placements of 7 or more tiles. -/
theorem calc_across_pts_compound (tiles : List Nat) (board : SquareGrid)
    (move : List Square) (h : move ≠ []) :
    calc_across_pts tiles board move =
      baseRowPts tiles board move *
          2 ^ move.countP (isDoubleWordSq board) *
          3 ^ move.countP (isTripleWordSq board) +
        crossPtsTotal tiles board move +
        (if move.length ≥ 7 then 50 else 0) := by
  cases move with
  | nil => exact absurd rfl h
  | cons first rest =>
    have hcounts := acrossSqrStep_counts tiles board (first :: rest) (0, 0, 0, 0)
    simp only [calc_across_pts, baseRowPts, crossPtsTotal]
    rw [applyTripleWord_eq, applyDoubleWord_eq]
    rw [hcounts.1, hcounts.2]
    by_cases hlen : (first :: rest).length ≥ 7
    · rw [if_pos hlen, if_pos hlen]
      ring
    · rw [if_neg hlen, if_neg hlen]
      ring

/-! ## C6: the empty-board opening assignments -/

/-- **C6 (amended).**  In the empty-board branch of `find_best_move`, the
minimum-connecting-length assigned to cell `(mid_row, col)` for a column at
or left of the center is `mid_col - col + 1` — the cell's distance to the
center plus one, i.e. the number of squares from the cell through the
center — except the center itself, which is forced to 2.  (`extend_right`
is then invoked only where this value is at most `NUM_RACK_TILES` and not
`-1`, which skips the leftmost such cell, whose value is 8.) -/
theorem opening_assign_spec (board : SquareGrid) (col : Nat)
    (h1 : 1 ≤ col) (h2 : col ≤ mid_col)
    (hr : mid_row < board.length)
    (hc : col < (board.getD mid_row []).length)
    (hcm : mid_col < (board.getD mid_row []).length) :
    (getSq (opening_assign board col) mid_row col).min_across_word_length =
      if col = mid_col then 2 else (mid_col : Int) - col + 1 := by
  unfold opening_assign
  by_cases hcol : col = mid_col
  · rw [if_pos hcol, if_pos hcol]
    subst hcol
    have hshape := setMin_shape board mid_row mid_col
      ((mid_col : Int) - (mid_col : Nat) + 1)
    rw [getSq_setMin_self _ _ _ _ (hshape.1.symm ▸ hr)
      ((hshape.2 mid_row).symm ▸ hcm)]
  · rw [if_neg hcol, if_neg hcol]
    rw [getSq_setMin_self _ _ _ _ hr hc]

/-- The empty board used for the C6 counterexample. -/
def bC6 : SquareGrid :=
  mkAnnotBoard (fun _ _ => SquareType.regular) (fun _ _ => '.')
    (fun _ _ => List.replicate 26 true) (fun _ _ => -1)

/-- **C6 (counterexample).**  On an empty board, the opening loop assigns
cell `(8,7)` — at distance 1 from the center `(8,8)` — the value 2, not its
distance 1; and it assigns the leftmost cell `(8,1)` the value 8, which
fails the `≤ NUM_RACK_TILES` guard, so `extend_right` is not invoked from
that cell at all. -/
theorem c6_counterexample :
    (∀ rc ∈ interiorCells, (getSq bC6 rc.1 rc.2).letter = '.') ∧
    mid_row = 8 ∧ mid_col = 8 ∧
    (getSq (opening_assign bC6 7) mid_row 7).min_across_word_length = 2 ∧
    ((mid_col - 7 : Nat) : Int) = 1 ∧
    (getSq (opening_assign bC6 7) mid_row 7).min_across_word_length ≠ 1 ∧
    (getSq (opening_assign bC6 1) mid_row 1).min_across_word_length = 8 ∧
    ¬((getSq (opening_assign bC6 1) mid_row 1).min_across_word_length ≤
        (NUM_RACK_TILES : Int) ∧
      (getSq (opening_assign bC6 1) mid_row 1).min_across_word_length ≠ -1) := by
  refine ⟨by decide, by decide, by decide, by decide, by decide, by decide,
    by decide, by decide⟩

/-- Witness for `opening_assign_spec` at column 7 on the empty board. -/
theorem opening_assign_spec_witness :
    (1 ≤ 7 ∧ 7 ≤ mid_col ∧ mid_row < bC6.length ∧
      7 < (bC6.getD mid_row []).length ∧
      mid_col < (bC6.getD mid_row []).length) ∧
    (getSq (opening_assign bC6 7) mid_row 7).min_across_word_length =
      if 7 = mid_col then 2 else (mid_col : Int) - (7 : Nat) + 1 :=
  ⟨⟨by decide, by decide, by decide, by decide, by decide⟩,
    opening_assign_spec bC6 7 (by decide) (by decide) (by decide) (by decide)
      (by decide)⟩

/-! ## C8: committing a move clobbers the bonus type of placed cells -/

/-- Empty board whose center carries the `double_word` bonus. -/
def bC8 : SquareGrid :=
  mkAnnotBoard
    (fun r c => if r = 8 ∧ c = 8 then SquareType.double_word
      else SquareType.regular)
    (fun _ _ => '.') (fun _ _ => List.replicate 26 true) (fun _ _ => -1)

/-- A one-tile move placing `A` on the center square, built exactly as the
search builds moves, via `add_sqr_to_move`. -/
def mvC8 : List Square := add_sqr_to_move 8 8 'A' []

/-- **C8.**  `add_move_to_board` does not leave the bonus type of placed
cells unchanged: `board[row][col] = _move[i]` assigns the whole `Square`,
and the move squares were built by `add_sqr_to_move` from a
default-constructed `Square` whose `type` was never set (indeterminate in
C++, the plain `regular` default in this model).  Committing a one-tile
move onto the `double_word` center square overwrites the cell's type with
that default, and the subsequent cross-check/minimum-length recomputation
never restores it. -/
theorem add_move_to_board_clobbers_type :
    (getSq bC8 8 8).type = SquareType.double_word ∧
    (getSq bC8 8 8).letter = '.' ∧
    (getSq (add_move_to_board [] bC8 mvC8) 8 8).letter = 'A' ∧
    (getSq (add_move_to_board [] bC8 mvC8) 8 8).type = SquareType.regular ∧
    SquareType.regular ≠ SquareType.double_word := by
  have hfold : mvC8.foldl (fun b s => setSq b s.row s.col s) bC8 =
      setSq bC8 8 8 { uninitSquare with row := 8, col := 8, letter := 'A' } :=
    rfl
  have hb := getSq_setSq_self bC8 8 8
    { uninitSquare with row := 8, col := 8, letter := 'A' }
    (by decide) (by decide)
  have hmin := minRowFold_sameButMin 8 8 (List.range NUM_BOARD_ROWS)
    (update_down_cross_checks []
      (mvC8.foldl (fun b s => setSq b s.row s.col s) bC8))
  have hcc := ccCellFold_sameButCC [] 8 8 interiorCells
    (mvC8.foldl (fun b s => setSq b s.row s.col s) bC8)
  refine ⟨by decide, by decide, ?_, ?_, by decide⟩
  · unfold add_move_to_board
    rw [update_min_eq_minRowFold, hmin.2.1, update_cc_eq_ccCellFold, hcc.2.1,
      hfold, hb]
  · unfold add_move_to_board
    rw [update_min_eq_minRowFold, hmin.1, update_cc_eq_ccCellFold, hcc.1,
      hfold, hb]
    rfl

/-! ## C9: rack discipline of the extend_right search -/

/-- The rack transformation performed at a recursion site of `extend_right`:
either a tile with a positive count is taken (`i ≤ 25` a letter, `i = 26`
the blank; the guard `rack[i] > 0` is the source's), or the rack is passed
through unchanged (the occupied-square recursion). -/
inductive ERRackStep : List Int → List Int → Prop where
  | take (rack : List Int) (i : Nat) (h : rack.getD i 0 > 0) :
      ERRackStep rack (rack.set i (rack.getD i 0 - 1))
  | pass (rack : List Int) : ERRackStep rack rack

/-- Decrementing a rack count and incrementing it again restores the rack. -/
theorem rackRestore (l : List Int) (i : Nat) :
    (l.set i (l.getD i 0 - 1)).set i
      ((l.set i (l.getD i 0 - 1)).getD i 0 + 1) = l := by
  by_cases h : i < l.length
  · rw [getD_set_self _ _ _ _ h, List.set_set, Int.sub_add_cancel,
      set_getD_self _ _ _ h]
  · have hle : l.length ≤ i := Nat.le_of_not_lt h
    rw [List.set_eq_of_length_le hle, List.set_eq_of_length_le hle]

/-- Popping the square just appended restores the in-progress move. -/
theorem moveRestore (r c : Nat) (L : Char) (m : List Square) :
    (add_sqr_to_move r c L m).dropLast = m := by
  unfold add_sqr_to_move
  exact List.dropLast_concat

/-- One children-loop iteration returns the rack and the in-progress move
exactly as it received them. -/
theorem erChildStep_restores (tiles : List Nat) (board : SquareGrid)
    (recur : List Int → TrieNode → Square → Int → List Square →
      List Square × Nat → List Square × Nat)
    (sqr : Square) (minw : Int)
    (st : List Int × List Square × (List Square × Nat)) (child : TrieNode) :
    (erChildStep tiles board recur sqr minw st child).1 = st.1 ∧
      (erChildStep tiles board recur sqr minw st child).2.1 = st.2.1 := by
  unfold erChildStep
  by_cases h1 : st.1.getD (child.letter.toNat - 65) 0 > 0 ∧
      sqr.down_cross_check.getD (child.letter.toNat - 65) false = true
  · rw [if_pos h1]
    exact ⟨rackRestore st.1 _, moveRestore _ _ _ _⟩
  · rw [if_neg h1]
    by_cases h2 : st.1.getD 26 0 > 0 ∧
        sqr.down_cross_check.getD (child.letter.toNat - 65) false = true
    · rw [if_pos h2]
      exact ⟨rackRestore st.1 _, moveRestore _ _ _ _⟩
    · rw [if_neg h2]
      exact ⟨rfl, rfl⟩

/-- Each children-loop iteration either makes no recursive call, or calls
`recur` with a rack obtained from the incoming one by an `ERRackStep.take`. -/
theorem erChildStep_call_shape (tiles : List Nat) (board : SquareGrid)
    (recur : List Int → TrieNode → Square → Int → List Square →
      List Square × Nat → List Square × Nat)
    (sqr : Square) (minw : Int)
    (st : List Int × List Square × (List Square × Nat)) (child : TrieNode) :
    (erChildStep tiles board recur sqr minw st child).2.2 = st.2.2 ∨
      ∃ rk mv, ERRackStep st.1 rk ∧
        (erChildStep tiles board recur sqr minw st child).2.2 =
          recur rk child (getSq board sqr.row (sqr.col + 1)) minw mv st.2.2 := by
  unfold erChildStep
  by_cases h1 : st.1.getD (child.letter.toNat - 65) 0 > 0 ∧
      sqr.down_cross_check.getD (child.letter.toNat - 65) false = true
  · rw [if_pos h1]
    exact Or.inr ⟨_, _, ERRackStep.take st.1 _ h1.1, rfl⟩
  · rw [if_neg h1]
    by_cases h2 : st.1.getD 26 0 > 0 ∧
        sqr.down_cross_check.getD (child.letter.toNat - 65) false = true
    · rw [if_pos h2]
      exact Or.inr ⟨_, _, ERRackStep.take st.1 26 h2.1, rfl⟩
    · rw [if_neg h2]
      exact Or.inl rfl

/-- A single `ERRackStep` keeps every rack count non-negative. -/
theorem ERRackStep_nonneg {a b : List Int} (h : ERRackStep a b)
    (hnn : ∀ x ∈ a, 0 ≤ x) : ∀ x ∈ b, 0 ≤ x := by
  cases h with
  | take i hpos =>
    intro x hx
    rcases List.mem_or_eq_of_mem_set hx with hmem | heq
    · exact hnn x hmem
    · subst heq
      omega
  | pass => exact hnn

/-- Non-negativity of every rack count is preserved along any chain of
recursion-site rack transformations. -/
theorem ERRackStep_reach_nonneg (rack rack' : List Int)
    (hsteps : Relation.ReflTransGen ERRackStep rack rack')
    (hnn : ∀ x ∈ rack, 0 ≤ x) : ∀ x ∈ rack', 0 ≤ x := by
  induction hsteps with
  | refl => exact hnn
  | tail _ hstep ih => exact ERRackStep_nonneg hstep ih

/-- The occupied-square recursion of `extend_right` passes the rack (and the
in-progress move) through unchanged. -/
theorem extend_right_occupied_recursion (tiles : List Nat) (board : SquareGrid)
    (fuel : Nat) (rack : List Int) (node : TrieNode) (curr_square : Square)
    (minw : Int) (curr_move : List Square) (best : List Square × Nat)
    (h1 : (getSq board curr_square.row curr_square.col).type ≠
      SquareType.outside)
    (h2 : (getSq board curr_square.row curr_square.col).letter ≠ '.')
    (h3 : node.letter_indexes.getD
      ((cToUpper (getSq board curr_square.row curr_square.col).letter).toNat -
        65) (-1) ≠ -1) :
    extend_right tiles board (fuel + 1) rack node curr_square minw curr_move
        best =
      extend_right tiles board fuel rack
        (node.children.getD
          (node.letter_indexes.getD
            ((cToUpper
              (getSq board curr_square.row curr_square.col).letter).toNat - 65)
            (-1)).toNat (newTrieNode '*'))
        (getSq board curr_square.row (curr_square.col + 1)) minw curr_move
        best := by
  show (if (getSq board curr_square.row curr_square.col).type =
      SquareType.outside then best
    else if (getSq board curr_square.row curr_square.col).letter = '.' then
      _
    else if node.letter_indexes.getD
        ((cToUpper
          (getSq board curr_square.row curr_square.col).letter).toNat - 65)
        (-1) ≠ -1 then
      extend_right tiles board fuel rack
        (node.children.getD
          (node.letter_indexes.getD
            ((cToUpper
              (getSq board curr_square.row curr_square.col).letter).toNat - 65)
            (-1)).toNat (newTrieNode '*'))
        (getSq board curr_square.row (curr_square.col + 1)) minw curr_move best
    else best) = _
  rw [if_neg h1, if_neg h2, if_pos h3]

/-- **C9.**  Rack discipline of the recursive search: (1) every iteration of
the children loop of `extend_right` hands back the rack and the in-progress
placement exactly as it received them (the taken tile is put back and the
appended square popped before the iteration ends); (2) each iteration
either makes no recursive call or recurses with a rack obtained by taking
one tile with a positive count (`ERRackStep`), and the occupied-square
branch recurses with the rack unchanged; (3) consequently, along any chain
of recursion-site rack transformations, racks whose counts start
non-negative keep every count non-negative. -/
theorem extend_right_rack_discipline :
    (∀ (tiles : List Nat) (board : SquareGrid)
        (recur : List Int → TrieNode → Square → Int → List Square →
          List Square × Nat → List Square × Nat)
        (sqr : Square) (minw : Int)
        (st : List Int × List Square × (List Square × Nat)) (child : TrieNode),
      (erChildStep tiles board recur sqr minw st child).1 = st.1 ∧
        (erChildStep tiles board recur sqr minw st child).2.1 = st.2.1) ∧
    (∀ (tiles : List Nat) (board : SquareGrid)
        (recur : List Int → TrieNode → Square → Int → List Square →
          List Square × Nat → List Square × Nat)
        (sqr : Square) (minw : Int)
        (st : List Int × List Square × (List Square × Nat)) (child : TrieNode),
      (erChildStep tiles board recur sqr minw st child).2.2 = st.2.2 ∨
        ∃ rk mv, ERRackStep st.1 rk ∧
          (erChildStep tiles board recur sqr minw st child).2.2 =
            recur rk child (getSq board sqr.row (sqr.col + 1)) minw mv
              st.2.2) ∧
    (∀ (tiles : List Nat) (board : SquareGrid) (fuel : Nat) (rack : List Int)
        (node : TrieNode) (curr_square : Square) (minw : Int)
        (curr_move : List Square) (best : List Square × Nat),
      (getSq board curr_square.row curr_square.col).type ≠
          SquareType.outside →
        (getSq board curr_square.row curr_square.col).letter ≠ '.' →
        node.letter_indexes.getD
            ((cToUpper
              (getSq board curr_square.row curr_square.col).letter).toNat - 65)
            (-1) ≠ -1 →
        extend_right tiles board (fuel + 1) rack node curr_square minw
            curr_move best =
          extend_right tiles board fuel rack
            (node.children.getD
              (node.letter_indexes.getD
                ((cToUpper
                  (getSq board curr_square.row
                    curr_square.col).letter).toNat - 65)
                (-1)).toNat (newTrieNode '*'))
            (getSq board curr_square.row (curr_square.col + 1)) minw curr_move
            best) ∧
    (∀ rack rack' : List Int, Relation.ReflTransGen ERRackStep rack rack' →
      (∀ x ∈ rack, 0 ≤ x) → ∀ x ∈ rack', 0 ≤ x) :=
  ⟨erChildStep_restores, erChildStep_call_shape,
    extend_right_occupied_recursion, ERRackStep_reach_nonneg⟩

/-! ## C10: the terminal check happens only at in-bounds empty squares -/

/-- The first column at or right of `c` in `row` that does not hold an
in-bounds letter: the scan walks right across the pre-existing letters that
trail a move's last placed tile. -/
def afterWordCol (board : SquareGrid) (row : Nat) : Nat → Nat → Nat
  | c, 0 => c
  | c, fuel + 1 =>
    if (getSq board row c).letter ≠ '.' ∧
        (getSq board row c).type ≠ SquareType.outside then
      afterWordCol board row (c + 1) fuel
    else c

/-- The square immediately after the end of a move's full primary word
(placed tiles plus trailing pre-existing letters) is an in-bounds empty
square. -/
def EndsOpen (board : SquareGrid) (mv : List Square) : Prop :=
  (getSq board (mv.getLastD outsideSquare).row
      (afterWordCol board (mv.getLastD outsideSquare).row
        ((mv.getLastD outsideSquare).col + 1) SCAN_FUEL)).letter = '.' ∧
    (getSq board (mv.getLastD outsideSquare).row
        (afterWordCol board (mv.getLastD outsideSquare).row
          ((mv.getLastD outsideSquare).col + 1) SCAN_FUEL)).type ≠
      SquareType.outside

/-- A well-formed bordered board: 17×17, every stored square carries its own
coordinates, and the sentinel ring is marked `outside`. -/
def GoodBoard (board : SquareGrid) : Prop :=
  board.length = 17 ∧
    (∀ r, r < 17 → (board.getD r []).length = 17) ∧
    (∀ r, r < 17 → ∀ c, c < 17 →
      (getSq board r c).row = r ∧ (getSq board r c).col = c) ∧
    (∀ r, r < 17 → ∀ c, c < 17 → (r = 0 ∨ r = 16 ∨ c = 0 ∨ c = 16) →
      (getSq board r c).type = SquareType.outside)

/-- A read outside the 17×17 grid yields the sentinel default. -/
theorem getSq_oob (board : SquareGrid) (hlen : board.length = 17)
    (hrows : ∀ r, r < 17 → (board.getD r []).length = 17) (r c : Nat)
    (h : 17 ≤ r ∨ 17 ≤ c) : getSq board r c = outsideSquare := by
  unfold getSq
  rcases h with h | h
  · rw [List.getD_eq_default _ _ (by omega : board.length ≤ r)]
    exact List.getD_nil
  · have hle : (board.getD r []).length ≤ c := by
      by_cases hr : r < 17
      · rw [hrows r hr]; exact h
      · rw [List.getD_eq_default _ _ (by omega : board.length ≤ r)]
        exact Nat.zero_le c
    exact List.getD_eq_default _ _ hle

/-- A square that is not `outside` lies in the playable interior and carries
its own coordinates. -/
theorem GoodBoard_interior (board : SquareGrid) (hb : GoodBoard board)
    (r c : Nat) (h : (getSq board r c).type ≠ SquareType.outside) :
    1 ≤ r ∧ r ≤ 15 ∧ 1 ≤ c ∧ c ≤ 15 ∧
      (getSq board r c).row = r ∧ (getSq board r c).col = c := by
  obtain ⟨hlen, hrows, hcoh, hring⟩ := hb
  have hr17 : r < 17 := by
    by_contra hge
    exact h (by rw [getSq_oob board hlen hrows r c (Or.inl (by omega))]; rfl)
  have hc17 : c < 17 := by
    by_contra hge
    exact h (by rw [getSq_oob board hlen hrows r c (Or.inr (by omega))]; rfl)
  have hnring : ¬(r = 0 ∨ r = 16 ∨ c = 0 ∨ c = 16) := fun hcase =>
    h (hring r hr17 c hc17 hcase)
  push_neg at hnring
  obtain ⟨e1, e2, e3, e4⟩ := hnring
  have hco := hcoh r hr17 c hc17
  exact ⟨by omega, by omega, by omega, by omega, hco.1, hco.2⟩

/-- The scan stops at a square that is empty or out of bounds. -/
theorem afterWordCol_stop (board : SquareGrid) (row c fuel : Nat)
    (h : ¬((getSq board row c).letter ≠ '.' ∧
      (getSq board row c).type ≠ SquareType.outside)) :
    afterWordCol board row c fuel = c := by
  cases fuel with
  | zero => rfl
  | succ f => exact if_neg h

/-- On a 17-wide board the scan's result does not depend on the fuel, once
the fuel covers the distance to the grid's edge. -/
theorem afterWordCol_stable (board : SquareGrid) (hlen : board.length = 17)
    (hrows : ∀ r, r < 17 → (board.getD r []).length = 17) (row : Nat) :
    ∀ (k c f1 f2 : Nat), 17 ≤ c + k → k ≤ f1 → k ≤ f2 →
      afterWordCol board row c f1 = afterWordCol board row c f2 := by
  intro k
  induction k with
  | zero =>
    intro c f1 f2 hck _ _
    have hout : getSq board row c = outsideSquare :=
      getSq_oob board hlen hrows row c (Or.inr (by omega))
    have hstop : ¬((getSq board row c).letter ≠ '.' ∧
        (getSq board row c).type ≠ SquareType.outside) := by
      rw [hout]
      intro hcon
      exact hcon.2 rfl
    rw [afterWordCol_stop _ _ _ _ hstop, afterWordCol_stop _ _ _ _ hstop]
  | succ k ih =>
    intro c f1 f2 hck h1 h2
    by_cases hcond : (getSq board row c).letter ≠ '.' ∧
        (getSq board row c).type ≠ SquareType.outside
    · obtain ⟨f1', rfl⟩ : ∃ m, f1 = m + 1 := ⟨f1 - 1, by omega⟩
      obtain ⟨f2', rfl⟩ : ∃ m, f2 = m + 1 := ⟨f2 - 1, by omega⟩
      have e1 : afterWordCol board row c (f1' + 1) =
          afterWordCol board row (c + 1) f1' := if_pos hcond
      have e2 : afterWordCol board row c (f2' + 1) =
          afterWordCol board row (c + 1) f2' := if_pos hcond
      rw [e1, e2]
      exact ih (c + 1) f1' f2' (by omega) (by omega) (by omega)
    · rw [afterWordCol_stop _ _ _ _ hcond, afterWordCol_stop _ _ _ _ hcond]

/-- The scan steps across an in-bounds occupied square. -/
theorem afterWordCol_step_occ (board : SquareGrid) (hlen : board.length = 17)
    (hrows : ∀ r, r < 17 → (board.getD r []).length = 17) (row c : Nat)
    (h : (getSq board row c).letter ≠ '.' ∧
      (getSq board row c).type ≠ SquareType.outside) :
    afterWordCol board row c SCAN_FUEL =
      afterWordCol board row (c + 1) SCAN_FUEL := by
  have e1 : afterWordCol board row c (31 + 1) =
      afterWordCol board row (c + 1) 31 := if_pos h
  have e2 : afterWordCol board row (c + 1) 31 =
      afterWordCol board row (c + 1) SCAN_FUEL :=
    afterWordCol_stable board hlen hrows row 17 (c + 1) 31 SCAN_FUEL
      (by omega) (by omega) (by decide)
  calc afterWordCol board row c SCAN_FUEL
      = afterWordCol board row (c + 1) 31 := e1
    _ = afterWordCol board row (c + 1) SCAN_FUEL := e2

/-- The square appended to a move is the move's new last square. -/
theorem add_sqr_getLastD (r c : Nat) (L : Char) (m : List Square) :
    (add_sqr_to_move r c L m).getLastD outsideSquare =
      { uninitSquare with row := r, col := c, letter := L } := by
  unfold add_sqr_to_move
  exact List.getLastD_concat _ _ _

/-- An out-of-bounds sentinel square makes `extend_right` return the
incoming best immediately, with no terminal check. -/
theorem extend_right_outside (tiles : List Nat) (board : SquareGrid)
    (fuel : Nat) (rack : List Int) (node : TrieNode) (cs : Square)
    (minw : Int) (mv : List Square) (best : List Square × Nat)
    (h : (getSq board cs.row cs.col).type = SquareType.outside) :
    extend_right tiles board (fuel + 1) rack node cs minw mv best = best := by
  show (if (getSq board cs.row cs.col).type = SquareType.outside then best
    else _) = best
  rw [if_pos h]

/-- An in-bounds occupied square whose letter has no trie child also makes
`extend_right` return the incoming best. -/
theorem extend_right_occupied_stop (tiles : List Nat) (board : SquareGrid)
    (fuel : Nat) (rack : List Int) (node : TrieNode) (cs : Square)
    (minw : Int) (mv : List Square) (best : List Square × Nat)
    (h1 : (getSq board cs.row cs.col).type ≠ SquareType.outside)
    (h2 : (getSq board cs.row cs.col).letter ≠ '.')
    (h3 : ¬(node.letter_indexes.getD
      ((cToUpper (getSq board cs.row cs.col).letter).toNat - 65) (-1) ≠
        -1)) :
    extend_right tiles board (fuel + 1) rack node cs minw mv best = best := by
  show (if (getSq board cs.row cs.col).type = SquareType.outside then best
    else if (getSq board cs.row cs.col).letter = '.' then _
    else if node.letter_indexes.getD
        ((cToUpper (getSq board cs.row cs.col).letter).toNat - 65) (-1) ≠ -1
      then _
    else best) = best
  rw [if_neg h1, if_neg h2, if_neg h3]

/-- The in-bounds empty branch of `extend_right`, written out: the terminal
check guards a possible record, then the children loop runs. -/
theorem extend_right_empty_eq (tiles : List Nat) (board : SquareGrid)
    (fuel : Nat) (rack : List Int) (node : TrieNode) (cs : Square)
    (minw : Int) (mv : List Square) (best : List Square × Nat)
    (h1 : (getSq board cs.row cs.col).type ≠ SquareType.outside)
    (h2 : (getSq board cs.row cs.col).letter = '.') :
    extend_right tiles board (fuel + 1) rack node cs minw mv best =
      (node.children.foldl
        (erChildStep tiles board
          (fun rk nd c mw mv2 bst =>
            extend_right tiles board fuel rk nd c mw mv2 bst)
          (getSq board cs.row cs.col) minw)
        (rack, mv,
          if node.is_terminal_node = true ∧ mv.length ≥ uintCast minw then
            if calc_across_pts tiles board mv > best.2 then
              (mv, calc_across_pts tiles board mv)
            else best
          else best)).2.2 := by
  show (if (getSq board cs.row cs.col).type = SquareType.outside then best
    else if (getSq board cs.row cs.col).letter = '.' then
      (node.children.foldl
        (erChildStep tiles board
          (fun rk nd c mw mv2 bst =>
            extend_right tiles board fuel rk nd c mw mv2 bst)
          (getSq board cs.row cs.col) minw)
        (rack, mv,
          if node.is_terminal_node = true ∧ mv.length ≥ uintCast minw then
            if calc_across_pts tiles board mv > best.2 then
              (mv, calc_across_pts tiles board mv)
            else best
          else best)).2.2
    else _) = _
  rw [if_neg h1, if_pos h2]

/-- Threading the children loop: the best component either stays the loop's
incoming best or comes to satisfy `Q`, provided each recursive call either
returns its incoming best or establishes `Q`. -/
theorem erChildFold_chain (tiles : List Nat) (board : SquareGrid)
    (recur : List Int → TrieNode → Square → Int → List Square →
      List Square × Nat → List Square × Nat)
    (sqr : Square) (minw : Int) (curr_move : List Square)
    (Q : List Square × Nat → Prop)
    (hrec : ∀ (rk : List Int) (nd : TrieNode) (L : Char)
        (bst : List Square × Nat),
      recur rk nd (getSq board sqr.row (sqr.col + 1)) minw
          (add_sqr_to_move sqr.row sqr.col L curr_move) bst = bst ∨
        Q (recur rk nd (getSq board sqr.row (sqr.col + 1)) minw
          (add_sqr_to_move sqr.row sqr.col L curr_move) bst)) :
    ∀ (children : List TrieNode)
      (st : List Int × List Square × (List Square × Nat))
      (b0 : List Square × Nat),
      st.2.1 = curr_move → (st.2.2 = b0 ∨ Q st.2.2) →
      ((children.foldl (erChildStep tiles board recur sqr minw) st).2.2 =
          b0 ∨
        Q ((children.foldl (erChildStep tiles board recur sqr minw)
          st).2.2)) := by
  intro children
  induction children with
  | nil => intro st b0 hmv hinv; exact hinv
  | cons child rest ih =>
    intro st b0 hmv hinv
    rw [List.foldl_cons]
    have hmv' : (erChildStep tiles board recur sqr minw st child).2.1 =
        curr_move :=
      ((erChildStep_restores tiles board recur sqr minw st child).2).trans hmv
    refine ih (erChildStep tiles board recur sqr minw st child) b0 hmv' ?_
    by_cases g1 : st.1.getD (child.letter.toNat - 65) 0 > 0 ∧
        sqr.down_cross_check.getD (child.letter.toNat - 65) false = true
    · have hcall : (erChildStep tiles board recur sqr minw st child).2.2 =
          recur (st.1.set (child.letter.toNat - 65)
              (st.1.getD (child.letter.toNat - 65) 0 - 1)) child
            (getSq board sqr.row (sqr.col + 1)) minw
            (add_sqr_to_move sqr.row sqr.col child.letter curr_move)
            st.2.2 := by
        unfold erChildStep
        rw [if_pos g1, hmv]
      rw [hcall]
      rcases hrec (st.1.set (child.letter.toNat - 65)
          (st.1.getD (child.letter.toNat - 65) 0 - 1)) child child.letter
          st.2.2 with heq | hq
      · rw [heq]; exact hinv
      · exact Or.inr hq
    · by_cases g2 : st.1.getD 26 0 > 0 ∧
          sqr.down_cross_check.getD (child.letter.toNat - 65) false = true
      · have hcall : (erChildStep tiles board recur sqr minw st child).2.2 =
            recur (st.1.set 26 (st.1.getD 26 0 - 1)) child
              (getSq board sqr.row (sqr.col + 1)) minw
              (add_sqr_to_move sqr.row sqr.col (cToLower child.letter)
                curr_move) st.2.2 := by
          unfold erChildStep
          rw [if_neg g1, if_pos g2, hmv]
        rw [hcall]
        rcases hrec (st.1.set 26 (st.1.getD 26 0 - 1)) child
            (cToLower child.letter) st.2.2 with heq | hq
        · rw [heq]; exact hinv
        · exact Or.inr hq
      · have hcall : (erChildStep tiles board recur sqr minw st child).2.2 =
            st.2.2 := by
          unfold erChildStep
          rw [if_neg g1, if_neg g2]
        rw [hcall]
        exact hinv

/-- Every placement the search hands back in place of the incoming best ends
with an in-bounds empty square after its full primary word. -/
theorem extend_right_endsOpen (tiles : List Nat) (board : SquareGrid)
    (hb : GoodBoard board) :
    ∀ (fuel : Nat) (rack : List Int) (node : TrieNode) (curr_square : Square)
      (minw : Int) (curr_move : List Square) (best : List Square × Nat),
      1 ≤ uintCast minw →
      (curr_move ≠ [] →
        (curr_move.getLastD outsideSquare).row = curr_square.row ∧
          afterWordCol board curr_square.row
              ((curr_move.getLastD outsideSquare).col + 1) SCAN_FUEL =
            afterWordCol board curr_square.row curr_square.col SCAN_FUEL) →
      extend_right tiles board fuel rack node curr_square minw curr_move
          best = best ∨
        EndsOpen board
          (extend_right tiles board fuel rack node curr_square minw curr_move
            best).1 := by
  intro fuel
  induction fuel with
  | zero =>
    intro rack node cs minw mv best hmw hcoh2
    exact Or.inl rfl
  | succ fuel ih =>
    intro rack node cs minw mv best hmw hcoh2
    by_cases hout : (getSq board cs.row cs.col).type = SquareType.outside
    · exact Or.inl
        (extend_right_outside tiles board fuel rack node cs minw mv best hout)
    · obtain ⟨hr1, hr15, hc1, hc15, hsrow, hscol⟩ :=
        GoodBoard_interior board hb cs.row cs.col hout
      by_cases hemp : (getSq board cs.row cs.col).letter = '.'
      · rw [extend_right_empty_eq tiles board fuel rack node cs minw mv best
          hout hemp]
        have hrec : ∀ (rk : List Int) (nd : TrieNode) (L : Char)
            (bst : List Square × Nat),
            extend_right tiles board fuel rk nd
                (getSq board (getSq board cs.row cs.col).row
                  ((getSq board cs.row cs.col).col + 1)) minw
                (add_sqr_to_move (getSq board cs.row cs.col).row
                  (getSq board cs.row cs.col).col L mv) bst = bst ∨
              EndsOpen board
                (extend_right tiles board fuel rk nd
                  (getSq board (getSq board cs.row cs.col).row
                    ((getSq board cs.row cs.col).col + 1)) minw
                  (add_sqr_to_move (getSq board cs.row cs.col).row
                    (getSq board cs.row cs.col).col L mv) bst).1 := by
          intro rk nd L bst
          rw [hsrow, hscol]
          refine ih rk nd (getSq board cs.row (cs.col + 1)) minw
            (add_sqr_to_move cs.row cs.col L mv) bst hmw ?_
          intro _
          have hco := hb.2.2.1 cs.row (by omega) (cs.col + 1) (by omega)
          rw [add_sqr_getLastD]
          refine ⟨?_, ?_⟩
          · rw [hco.1]
          · rw [hco.1, hco.2]
        have hinv :
            (if node.is_terminal_node = true ∧
                mv.length ≥ uintCast minw then
              if calc_across_pts tiles board mv > best.2 then
                (mv, calc_across_pts tiles board mv)
              else best
            else best) = best ∨
              EndsOpen board
                (if node.is_terminal_node = true ∧
                    mv.length ≥ uintCast minw then
                  if calc_across_pts tiles board mv > best.2 then
                    (mv, calc_across_pts tiles board mv)
                  else best
                else best).1 := by
          by_cases hterm : node.is_terminal_node = true ∧
              mv.length ≥ uintCast minw
          · rw [if_pos hterm]
            by_cases hgt : calc_across_pts tiles board mv > best.2
            · rw [if_pos hgt]
              right
              show EndsOpen board mv
              have hne : mv ≠ [] := by
                have hlen1 : 1 ≤ mv.length := le_trans hmw hterm.2
                exact List.ne_nil_of_length_pos (by omega)
              obtain ⟨hrow, hawc⟩ := hcoh2 hne
              unfold EndsOpen
              rw [hrow, hawc,
                afterWordCol_stop board cs.row cs.col SCAN_FUEL
                  (fun hcon => hcon.1 hemp)]
              exact ⟨hemp, hout⟩
            · rw [if_neg hgt]; exact Or.inl rfl
          · rw [if_neg hterm]; exact Or.inl rfl
        exact erChildFold_chain tiles board
          (fun rk nd c mw mv2 bst =>
            extend_right tiles board fuel rk nd c mw mv2 bst)
          (getSq board cs.row cs.col) minw mv (fun b => EndsOpen board b.1)
          hrec node.children
          (rack, mv,
            if node.is_terminal_node = true ∧ mv.length ≥ uintCast minw then
              if calc_across_pts tiles board mv > best.2 then
                (mv, calc_across_pts tiles board mv)
              else best
            else best) best rfl hinv
      · by_cases hchild : node.letter_indexes.getD
            ((cToUpper (getSq board cs.row cs.col).letter).toNat - 65)
            (-1) ≠ -1
        · rw [extend_right_occupied_recursion tiles board fuel rack node cs
            minw mv best hout hemp hchild]
          refine ih rack
            (node.children.getD
              (node.letter_indexes.getD
                ((cToUpper (getSq board cs.row cs.col).letter).toNat - 65)
                (-1)).toNat (newTrieNode '*'))
            (getSq board cs.row (cs.col + 1)) minw mv best hmw ?_
          intro hne
          obtain ⟨hrow, hawc⟩ := hcoh2 hne
          have hco := hb.2.2.1 cs.row (by omega) (cs.col + 1) (by omega)
          rw [hco.1, hco.2]
          refine ⟨hrow, ?_⟩
          exact hawc.trans
            (afterWordCol_step_occ board hb.1 hb.2.1 cs.row cs.col
              ⟨hemp, hout⟩)
        · exact Or.inl
            (extend_right_occupied_stop tiles board fuel rack node cs minw mv
              best hout hemp hchild)

/-- **C10.**  The complete-move (terminal trie node) check of `extend_right`
happens only at an in-bounds empty square: a branch that reaches an
out-of-bounds sentinel square returns the incoming best immediately.
Consequently, on a well-formed bordered board, whenever a call hands back
anything other than the best it was given, the returned placement's full
primary word (placed tiles plus trailing pre-existing letters) is followed
by an in-bounds empty square — a move whose primary word ends flush at the
rightmost playable column is never recorded. -/
theorem extend_right_terminal_check_inbounds :
    (∀ (tiles : List Nat) (board : SquareGrid) (fuel : Nat)
        (rack : List Int) (node : TrieNode) (curr_square : Square)
        (minw : Int) (curr_move : List Square) (best : List Square × Nat),
      (getSq board curr_square.row curr_square.col).type =
          SquareType.outside →
        extend_right tiles board (fuel + 1) rack node curr_square minw
          curr_move best = best) ∧
    (∀ (tiles : List Nat) (board : SquareGrid), GoodBoard board →
      ∀ (fuel : Nat) (rack : List Int) (node : TrieNode)
        (curr_square : Square) (minw : Int) (curr_move : List Square)
        (best : List Square × Nat),
        1 ≤ uintCast minw →
        (curr_move ≠ [] →
          (curr_move.getLastD outsideSquare).row = curr_square.row ∧
            afterWordCol board curr_square.row
                ((curr_move.getLastD outsideSquare).col + 1) SCAN_FUEL =
              afterWordCol board curr_square.row curr_square.col
                SCAN_FUEL) →
        extend_right tiles board fuel rack node curr_square minw curr_move
            best = best ∨
          EndsOpen board
            (extend_right tiles board fuel rack node curr_square minw
              curr_move best).1) :=
  ⟨fun tiles board fuel rack node cs minw mv best h =>
      extend_right_outside tiles board fuel rack node cs minw mv best h,
    fun tiles board hb => extend_right_endsOpen tiles board hb⟩

/-! ## Witnesses instantiating the hypothesis-bearing theorems -/

/-- Witness for `update_down_cross_checks_cell_spec` at the empty center
cell of `c1Board`. -/
theorem update_down_cross_checks_cell_spec_witness :
    ((1 ≤ 8 ∧ 8 ≤ NUM_BOARD_ROWS ∧ 1 ≤ 8 ∧ 8 ≤ NUM_BOARD_COLS) ∧
      (8 < c1Board.length ∧ 8 < (c1Board.getD 8 []).length) ∧
      (getSq c1Board 8 8).letter = '.') ∧
    (((aboveFrag c1Board 8 (8 - 1) = [] ∧
        belowFrag c1Board 8 (8 + 1) SCAN_FUEL = []) →
      getSq (update_down_cross_checks [] c1Board) 8 8 =
        getSq c1Board 8 8) ∧
    (¬(aboveFrag c1Board 8 (8 - 1) = [] ∧
        belowFrag c1Board 8 (8 + 1) SCAN_FUEL = []) →
      getSq (update_down_cross_checks [] c1Board) 8 8 =
        { getSq c1Board 8 8 with
            down_cross_check :=
              crossCheckBits [] (aboveFrag c1Board 8 (8 - 1))
                (belowFrag c1Board 8 (8 + 1) SCAN_FUEL) })) :=
  ⟨⟨⟨by decide, by decide, by decide, by decide⟩, ⟨by decide, by decide⟩,
      by decide⟩,
    update_down_cross_checks_cell_spec [] c1Board 8 8 (by decide) (by decide)
      (by decide) (by decide) ⟨by decide, by decide⟩ (by decide)⟩

/-- Witness for `update_min_right_of_occupied`: on `c2Board` the cell
`(8, 9)` sits immediately right of the tile at `(8, 8)` and is assigned
`-1`. -/
theorem update_min_right_of_occupied_witness :
    ((1 ≤ 8 ∧ 8 ≤ NUM_BOARD_ROWS ∧ 1 ≤ 9 ∧ 9 ≤ NUM_BOARD_COLS) ∧
      (8 < c2Board.length ∧ 9 < (c2Board.getD 8 []).length) ∧
      (getSq c2Board 8 (9 - 1)).letter ≠ '.') ∧
    (getSq (update_min_across_word_length c2Board) 8
        9).min_across_word_length = -1 :=
  ⟨⟨⟨by decide, by decide, by decide, by decide⟩, ⟨by decide, by decide⟩,
      by decide⟩,
    update_min_right_of_occupied c2Board 8 9 (by decide) (by decide)
      (by decide) (by decide) (by decide) (by decide) (by decide)⟩

/-- Witness for `find_best_move_occupied_spec` on the occupied board
`c2Board`. -/
theorem find_best_move_occupied_spec_witness :
    (∃ rc ∈ interiorCells, (getSq c2Board rc.1 rc.2).letter ≠ '.') ∧
    find_best_move [] [] (newTrieNode '*') c2Board [] ([], 0) =
      (if calc_across_pts [] c2Board
            (find_best_across_move [] c2Board [] (newTrieNode '*')) >
          calc_down_pts [] [] c2Board
            (find_best_down_move [] [] (newTrieNode '*') c2Board []) then
        (find_best_across_move [] c2Board [] (newTrieNode '*'),
          calc_across_pts [] c2Board
            (find_best_across_move [] c2Board [] (newTrieNode '*')))
      else
        (find_best_down_move [] [] (newTrieNode '*') c2Board [],
          calc_down_pts [] [] c2Board
            (find_best_down_move [] [] (newTrieNode '*') c2Board []))) :=
  ⟨⟨(8, 8), by decide, by decide⟩,
    find_best_move_occupied_spec [] [] (newTrieNode '*') c2Board [] ([], 0)
      ⟨(8, 8), by decide, by decide⟩⟩

/-- Witness for `calc_across_pts_compound` on the one-tile move `mvC8` over
the bonus board `bC8`. -/
theorem calc_across_pts_compound_witness :
    mvC8 ≠ [] ∧
    calc_across_pts [] bC8 mvC8 =
      baseRowPts [] bC8 mvC8 * 2 ^ mvC8.countP (isDoubleWordSq bC8) *
          3 ^ mvC8.countP (isTripleWordSq bC8) +
        crossPtsTotal [] bC8 mvC8 +
        (if mvC8.length ≥ 7 then 50 else 0) :=
  ⟨by decide, calc_across_pts_compound [] bC8 mvC8 (by decide)⟩

end Scrabble
